import Mathlib

/-!
Verification of the protocol layer of a reverse-engineered Gemini web client
written in Go (package `gemini`).

Go strings are UTF-8 byte sequences.  On whole-character input every cut
point the code under verification produces (whitespace skipping over
ASCII bytes, ASCII digit runs, the byte count returned by
`getCharCountForUTF16Units`) falls on a rune boundary, so the primary
model treats strings as rune sequences, `List Char`.  Network chunking,
however, can cut a multi-byte character in half; Go then decodes the
truncated tail to U+FFFD replacement runes whose re-encoded UTF-8 length
can exceed the bytes actually buffered, and the payload slice panics.  A
second, byte-level model (`List Nat`, with the panic as `none`) captures
exactly that behaviour; the two models agree on character-aligned input.

JSON values decoded by `encoding/json` into `interface{}` are modelled by
the inductive type `Json`.  The frame decoder is parameterised by the
JSON-decoding function (`json.Unmarshal` is Go library code, not code of
this repository); a concrete executable decoder `jsonDecode` covering the
fragment exercised by the repository's data (null, booleans, integer
numbers, strings, arrays, objects) instantiates it for concrete runs.
-/

/-- JSON values as decoded by `encoding/json` into `interface{}`.
Numbers are modelled as integers (`float64` in Go); every concrete frame
appearing in this development carries integer numbers only. -/
inductive Json where
  | null : Json
  | bool (b : Bool) : Json
  | num (n : Int) : Json
  | str (s : List Char) : Json
  | arr (elems : List Json) : Json
  | obj (fields : List (List Char × Json)) : Json

/-- The four byte values treated as whitespace by the frame decoder's
`isSpace` helper (space, tab, newline, carriage return). -/
def isSpace (c : Char) : Bool :=
  c = ' ' || c = '\t' || c = '\n' || c = '\r'

/-- ASCII decimal digit, as matched by the RE2 class `\d` in the length
marker pattern. -/
def isDigit (c : Char) : Bool :=
  '0' ≤ c && c ≤ '9'

/-- Value of a decimal digit run, as computed by `strconv.Atoi` on the
captured length marker (overflow aside, which no realistic frame reaches). -/
def natOfDigits (ds : List Char) : Nat :=
  ds.foldl (fun a c => a * 10 + (c.toNat - '0'.toNat)) 0

/-- UTF-16 code units contributed by one rune: 2 for characters outside the
Basic Multilingual Plane, 1 otherwise (`if r > 0xFFFF`). -/
def utf16Units (c : Char) : Nat :=
  if c.toNat > 0xFFFF then 2 else 1

/-- Total UTF-16 code units of a rune sequence. -/
def sumUnits (s : List Char) : Nat :=
  (s.map utf16Units).sum

/-- Loop body of `getCharCountForUTF16Units`: walk the runes accumulating
UTF-16 units, stopping when the accumulated count reaches the target or
the next rune would overshoot it.  Returns the number of runes consumed and
the final unit count (the Go function returns the UTF-8 byte length of the
consumed runes, used to slice at exactly the same rune boundary). -/
def utf16Scan : List Char → Nat → Nat → Nat × Nat
  | [], units, _ => (0, units)
  | c :: rest, units, target =>
      if units ≥ target then (0, units)
      else
        let u := utf16Units c
        if units + u > target then (0, units)
        else
          let r := utf16Scan rest (units + u) target
          (r.1 + 1, r.2)

/-- The function `getCharCountForUTF16Units s n` returns: runes (Go: bytes at the same rune
boundary) spanned by the first `n` UTF-16 code units of `s`, together with
the number of units actually found. -/
def getCharCountForUTF16Units (s : List Char) (n : Nat) : Nat × Nat :=
  utf16Scan s 0 n

/-- Go's `unicode.IsSpace` (the White_Space property), used by
`strings.TrimSpace` on frame payloads. -/
def unicodeIsSpace (c : Char) : Bool :=
  c.toNat ∈ [0x9, 0xA, 0xB, 0xC, 0xD, 0x20, 0x85, 0xA0, 0x1680,
    0x2000, 0x2001, 0x2002, 0x2003, 0x2004, 0x2005, 0x2006, 0x2007,
    0x2008, 0x2009, 0x200A, 0x2028, 0x2029, 0x202F, 0x205F, 0x3000]

/-- Go's `strings.TrimSpace`: drop leading and trailing Unicode whitespace. -/
def trimSpace (s : List Char) : List Char :=
  ((s.dropWhile unicodeIsSpace).reverse.dropWhile unicodeIsSpace).reverse

/-- Values contributed to the result list by one frame payload: trim it;
an empty trimmed payload contributes nothing (`continue`); a payload that
fails to parse as JSON is silently dropped; a parsed array is spliced
element-wise; any other value is appended itself. -/
def handleChunk (decode : List Char → Option Json) (chunk : List Char) :
    List Json :=
  let t := trimSpace chunk
  if t = [] then []
  else
    match decode t with
    | none => []
    | some (Json.arr xs) => xs
    | some v => [v]

/-- Fuel-indexed loop of `ParseResponseByFrame`.  Each iteration skips
whitespace, matches the decimal length marker `^(\d+)\n`, counts off the
declared number of UTF-16 units starting at the newline after the digits
(`start_content = match.start() + len(length_val)`), and either consumes
the payload span or stops, returning everything from the current position
as the remainder.  The fuel is always at least the input length, and one
marker digit is consumed per iteration, so the fuel never runs out. -/
def parseFramesAux (decode : List Char → Option Json) :
    Nat → List Char → List Json × List Char
  | 0, content => ([], content)
  | fuel + 1, content =>
      let afterWs := content.dropWhile isSpace
      if afterWs = [] then ([], [])
      else
        let ds := afterWs.takeWhile isDigit
        let rest := afterWs.drop ds.length
        if ds = [] ∨ rest.head? ≠ some '\n' then ([], afterWs)
        else
          let n := natOfDigits ds
          let r := getCharCountForUTF16Units rest n
          if r.2 < n then ([], afterWs)
          else
            let res := parseFramesAux decode fuel (rest.drop r.1)
            (handleChunk decode (rest.take r.1) ++ res.1, res.2)

/-- The function `ParseResponseByFrame`: parse the length-prefixed framing protocol,
returning the ordered list of decoded frame values and the unconsumed
remainder, parameterised by the JSON decoding function. -/
def ParseResponseByFrame (decode : List Char → Option Json)
    (content : List Char) : List Json × List Char :=
  parseFramesAux decode content.length content

/-- JSON insignificant whitespace. -/
def jsonWs (c : Char) : Bool :=
  c = ' ' || c = '\t' || c = '\n' || c = '\r'

/-- Decode one JSON string-literal escape character. `\uXXXX` is handled in
the string-body scanner. -/
def jsonEscape (c : Char) : Option Char :=
  if c = '"' then some '"'
  else if c = '\\' then some '\\'
  else if c = '/' then some '/'
  else if c = 'b' then some (Char.ofNat 8)
  else if c = 'f' then some (Char.ofNat 12)
  else if c = 'n' then some '\n'
  else if c = 'r' then some '\r'
  else if c = 't' then some '\t'
  else none

/-- Hexadecimal digit value. -/
def hexVal (c : Char) : Option Nat :=
  if '0' ≤ c ∧ c ≤ '9' then some (c.toNat - '0'.toNat)
  else if 'a' ≤ c ∧ c ≤ 'f' then some (c.toNat - 'a'.toNat + 10)
  else if 'A' ≤ c ∧ c ≤ 'F' then some (c.toNat - 'A'.toNat + 10)
  else none

/-- Scan the body of a JSON string literal after the opening quote,
returning the decoded characters and the input after the closing quote.
A `\uXXXX` escape that denotes a surrogate half decodes to U+FFFD
(mirroring Go's handling of unpaired halves; paired halves are not
recombined — no concrete input of this development uses `\u`). -/
def parseStrChars : List Char → Option (List Char × List Char)
  | [] => none
  | '"' :: rest => some ([], rest)
  | '\\' :: 'u' :: h1 :: h2 :: h3 :: h4 :: rest => do
      let d1 ← hexVal h1
      let d2 ← hexVal h2
      let d3 ← hexVal h3
      let d4 ← hexVal h4
      let v := ((d1 * 16 + d2) * 16 + d3) * 16 + d4
      let c := if 0xD800 ≤ v ∧ v ≤ 0xDFFF then Char.ofNat 0xFFFD else Char.ofNat v
      let r ← parseStrChars rest
      pure (c :: r.1, r.2)
  | '\\' :: e :: rest => do
      let c ← jsonEscape e
      let r ← parseStrChars rest
      pure (c :: r.1, r.2)
  | c :: rest => do
      let r ← parseStrChars rest
      pure (c :: r.1, r.2)

/-- Scan an optional minus sign and a nonempty digit run as an integer.
Fractions and exponents (which Go would decode as non-integral `float64`)
are rejected; no frame in this development carries them. -/
def parseIntNum (s : List Char) : Option (Int × List Char) :=
  let (sign, s') : Int × List Char :=
    match s with
    | '-' :: rest => (-1, rest)
    | _ => (1, s)
  let ds := s'.takeWhile isDigit
  let rest := s'.drop ds.length
  if ds = [] then none
  else
    match rest with
    | '.' :: _ => none
    | 'e' :: _ => none
    | 'E' :: _ => none
    | _ => some (sign * (natOfDigits ds : Int), rest)

mutual

/-- Recursive-descent JSON value parser (fuel-indexed, fuel bounded below
by the nesting depth, which the top-level wrapper over-approximates by the
input length). -/
def parseJsonVal : Nat → List Char → Option (Json × List Char)
  | 0, _ => none
  | fuel + 1, s =>
      match s.dropWhile jsonWs with
      | 'n' :: 'u' :: 'l' :: 'l' :: rest => some (Json.null, rest)
      | 't' :: 'r' :: 'u' :: 'e' :: rest => some (Json.bool true, rest)
      | 'f' :: 'a' :: 'l' :: 's' :: 'e' :: rest => some (Json.bool false, rest)
      | '"' :: rest => do
          let r ← parseStrChars rest
          pure (Json.str r.1, r.2)
      | '[' :: rest =>
          (match (rest.dropWhile jsonWs) with
          | ']' :: rest' => some (Json.arr [], rest')
          | _ => do
              let r ← parseJsonItems fuel rest
              pure (Json.arr r.1, r.2))
      | '\x7b' :: rest =>
          (match (rest.dropWhile jsonWs) with
          | '\x7d' :: rest' => some (Json.obj [], rest')
          | _ => do
              let r ← parseJsonFields fuel rest
              pure (Json.obj r.1, r.2))
      | s' => do
          let r ← parseIntNum s'
          pure (Json.num r.1, r.2)

/-- Elements of a JSON array (position: before an element). -/
def parseJsonItems : Nat → List Char → Option (List Json × List Char)
  | 0, _ => none
  | fuel + 1, s => do
      let r ← parseJsonVal fuel s
      match r.2.dropWhile jsonWs with
      | ',' :: rest => do
          let rr ← parseJsonItems fuel rest
          pure (r.1 :: rr.1, rr.2)
      | ']' :: rest => pure ([r.1], rest)
      | _ => none

/-- Members of a JSON object (position: before a `"key": value` pair). -/
def parseJsonFields : Nat → List Char →
    Option (List (List Char × Json) × List Char)
  | 0, _ => none
  | fuel + 1, s => do
      match s.dropWhile jsonWs with
      | '"' :: rest => do
          let k ← parseStrChars rest
          match k.2.dropWhile jsonWs with
          | ':' :: rest' => do
              let v ← parseJsonVal fuel rest'
              match v.2.dropWhile jsonWs with
              | ',' :: rest'' => do
                  let rr ← parseJsonFields fuel rest''
                  pure ((k.1, v.1) :: rr.1, rr.2)
              | '\x7d' :: rest'' => pure ([(k.1, v.1)], rest'')
              | _ => none
          | _ => none
      | _ => none

end

/-- Go's `json.Unmarshal` as used on frame payloads, restricted to the JSON
fragment this development exercises: the whole input must be one value
followed only by whitespace. -/
def jsonDecode (s : List Char) : Option Json :=
  match parseJsonVal (s.length + 1) s with
  | some (v, rest) => if rest.dropWhile jsonWs = [] then some v else none
  | none => none

/-- Incremental consumption: fold the chunks through the decoder, carrying
the remainder forward and accumulating decoded frames, exactly the way the
streaming read loop of `GenerateContentStream` does. -/
def feedChunks (decode : List Char → Option Json)
    (chunks : List (List Char)) : List Json × List Char :=
  chunks.foldl (fun acc chunk =>
    let r := ParseResponseByFrame decode (acc.2 ++ chunk)
    (acc.1 ++ r.1, r.2)) ([], [])

/-! ### Delta reconstructor -/

/-- The volatile character set built by the package `init` function:
ASCII whitespace `" \t\n\r"` plus the ASCII punctuation run
`!"#$%&'()*+,-./:;<=>?@[\]^_` backtick `{|}~` (apostrophe, backtick and
braces written via their code points). -/
def volatileSet (c : Char) : Bool :=
  c ∈ [' ', '\t', '\n', '\r', '!', '"', '#', '$', '%', '&', Char.ofNat 39,
    '(', ')', '*', '+', ',', '-', '.', '/', ':', ';', '<', '=', '>', '?',
    '@', '[', '\\', ']', '^', '_', Char.ofNat 96, Char.ofNat 123, '|',
    Char.ofNat 125, '~']

/-- The symbol class of the flicker regex `\\+[` backtick `*_~]`. -/
def flickerSyms (c : Char) : Bool :=
  c = Char.ofNat 96 || c = '*' || c = '_' || c = '~'

/-- Does the RE2 pattern `\\+[` backtick `*_~].*$` match starting exactly
here: a nonempty backslash run, one symbol, and no newline up to the end of
the text (`.` does not cross newlines and `$` anchors at end of text)? -/
def flickerMatchAt (l : List Char) : Bool :=
  let bs := l.takeWhile (fun c => c = '\\')
  let r := l.drop bs.length
  decide (bs ≠ []) &&
    (match r with
     | sym :: tail => flickerSyms sym && tail.all (fun c => c ≠ '\n')
     | [] => false)

/-- Go's `regexp.ReplaceAllString` with the flicker pattern and an empty
replacement: every match runs to the end of the text, so the effect is to
cut the input at the leftmost match position. -/
def dropFlickerTail : List Char → List Char
  | [] => []
  | c :: rest =>
      if flickerMatchAt (c :: rest) then [] else c :: dropFlickerTail rest

/-- The code-fence suffix `"\n` three backticks `"` dropped by
`GetCleanText` (`strings.HasSuffix(s, ...)` then `s[:len(s)-4]`). -/
def dropCodeFence (s : List Char) : List Char :=
  if ['\n', Char.ofNat 96, Char.ofNat 96, Char.ofNat 96].isSuffixOf s
  then s.take (s.length - 4) else s

/-- The function `GetCleanText`: empty stays empty; otherwise drop a trailing code-fence
marker, then cut at the leftmost flicker-regex match. -/
def GetCleanText (s : List Char) : List Char :=
  if s = [] then [] else dropFlickerTail (dropCodeFence s)

/-- The front-pointer search: walk the new snapshot counting content
(non-volatile) characters; when the running count reaches the target,
return `i + 1` (the Go loop's `pLow`); `none` when the target is never
reached. -/
def findFP : List Char → Nat → Nat → Option Nat
  | [], _, _ => none
  | c :: rest, curr, target =>
      let curr' := if volatileSet c = false then curr + 1 else curr
      if curr' = target then some 1
      else (findFP rest curr' target).map (· + 1)

/-- Length of the longest common prefix of two rune sequences (the
`commonLen` fallback loop). -/
def commonPrefixLen : List Char → List Char → Nat
  | a :: as, b :: bs => if a = b then commonPrefixLen as bs + 1 else 0
  | _, _ => 0

/-- The volatile-only tail of the previously sent text: the characters
after its last content character (`lastContentIdx`). -/
def volatileTail (l : List Char) : List Char :=
  (l.reverse.takeWhile volatileSet).reverse

/-- The suffix-matching loop of `GetDeltaByFPLen`: match the old text's
volatile tail against the new snapshot from the resume offset, tolerating a
one-character backslash-escape skew on either side; returns the advance
`j` on the new side.  When the lookahead of the second condition fails the
third cannot fire (its guard `charS = '\\'` would contradict the failed
first condition), so those branches return 0 exactly as the Go loop
breaks. -/
def skewMatch : List Char → List Char → Nat
  | [], _ => 0
  | _ :: _, [] => 0
  | s :: ss, n :: ns =>
      if s = n then skewMatch ss ns + 1
      else if n = '\\' then
        match ns with
        | n2 :: ns2 => if n2 = s then skewMatch ss ns2 + 2 else 0
        | [] => 0
      else if s = '\\' then
        match ss with
        | s2 :: ss2 => if s2 = n then skewMatch ss2 ns + 1 else 0
        | [] => 0
      else 0

/-- The function `GetDeltaByFPLen`: clean the snapshot unless final; fast path when the
cleaned snapshot extends the previously sent text; otherwise realign by
front-pointer length, falling back to the longest common prefix when the
target count is never reached, then walk the volatile tail with the skew
tolerance. -/
def GetDeltaByFPLen (newRaw lastSentClean : List Char) (isFinal : Bool) :
    List Char × List Char :=
  let newC := if isFinal then newRaw else GetCleanText newRaw
  if lastSentClean.isPrefixOf newC then
    (newC.drop lastSentClean.length, newC)
  else
    let targetFPLen :=
      (lastSentClean.filter (fun c => volatileSet c = false)).length
    if 0 < targetFPLen then
      match findFP newC 0 targetFPLen with
      | none => (newC.drop (commonPrefixLen lastSentClean newC), newC)
      | some pLow =>
          (newC.drop (pLow + skewMatch (volatileTail lastSentClean)
            (newC.drop pLow)), newC)
    else
      (newC.drop (skewMatch (volatileTail lastSentClean) newC), newC)

/-- The per-candidate delta thread of `processFrame`: each frame's snapshot
and finality flag is fed to `GetDeltaByFPLen` with the accumulated text
stored for the candidate (`lastTexts[rcid]`, initially empty), which is
then overwritten with the returned accumulated text.  Returns the emitted
deltas in order and the final accumulated text. -/
def runDeltaSteps : List (List Char × Bool) → List Char →
    List (List Char) × List Char
  | [], last => ([], last)
  | (snap, fin) :: rest, last =>
      let r := GetDeltaByFPLen snap last fin
      let rr := runDeltaSteps rest r.2
      (r.1 :: rr.1, rr.2)

/-- The fast-path condition along a run: every snapshot, cleaned when not
final and raw when final, extends the previously accumulated text. -/
def fastPathRun : List (List Char × Bool) → List Char → Bool
  | [], _ => true
  | (snap, fin) :: rest, last =>
      last.isPrefixOf (if fin then snap else GetCleanText snap) &&
      fastPathRun rest (if fin then snap else GetCleanText snap)

/-! ### Response projector and session models -/

/-- A path component for `GetNestedValue`: an integer index into a JSON
array (negative counts from the end) or a string key into a JSON object. -/
inductive Key where
  | idx (i : Int)
  | fld (s : List Char)

/-- The function `GetNestedValue`: walk a decoded JSON value along a path of index/key
steps; any failure (wrong shape, out-of-range index, missing key) yields
Go's `nil` interface value, which `encoding/json` also uses for JSON
`null`, modelled by `Json.null`. -/
def GetNestedValue : Json → List Key → Json
  | data, [] => data
  | data, k :: rest =>
      match k, data with
      | Key.idx i, Json.arr l =>
          if -(l.length : Int) ≤ i ∧ i < (l.length : Int) then
            GetNestedValue
              (l.getD (if i < 0 then ((l.length : Int) + i).toNat
                else i.toNat) Json.null) rest
          else Json.null
      | Key.fld s, Json.obj m =>
          match m.lookup s with
          | some v => GetNestedValue v rest
          | none => Json.null
      | _, _ => Json.null

/-- Go's `x.(string)` type assertion on a decoded JSON value. -/
def jStr : Json → Option (List Char)
  | Json.str s => some s
  | _ => none

/-- Go's `x.(float64)` type assertion on a decoded JSON value (numbers are
modelled as integers). -/
def jNum : Json → Option Int
  | Json.num n => some n
  | _ => none

/-- An image projected from a candidate (`Image`; `WebImage` and
`GeneratedImage` both wrap it — the `Cookies` field of `GeneratedImage` is
never populated by `processFrame` and is omitted). -/
structure Image where
  URL : List Char
  Title : List Char
  Alt : List Char
  Proxy : List Char
deriving DecidableEq

/-- One reply candidate as built by `processFrame`. -/
structure Candidate where
  RCID : List Char
  Text : List Char
  TextDelta : List Char
  Thoughts : List Char
  ThoughtsDelta : List Char
  WebImages : List Image
  GeneratedImages : List Image
deriving DecidableEq

/-- One emitted update (`ModelOutput`).  `Chosen` is a Go `int`. -/
structure ModelOutput where
  Metadata : List (List Char)
  Candidates : List Candidate
  Chosen : Int
deriving DecidableEq

/-- The mutable state of a `ChatSession` touched by `processFrame` and
`SendMessage` (the client pointer, model and gem fields are not). -/
structure ChatState where
  Metadata : List (List Char)
  CID : List Char
  RID : List Char
  RCID : List Char
deriving DecidableEq

/-- A Go `map[string]string`, modelled as an association list where the
most recent binding shadows older ones. -/
def SMap : Type := List (List Char × List Char)

/-- Map read with the zero-value default `""`. -/
def mapGet (m : SMap) (k : List Char) : List Char :=
  ((m : List (List Char × List Char)).lookup k).getD []

/-- Map write. -/
def mapSet (m : SMap) (k v : List Char) : SMap :=
  ((k, v) :: (m : List (List Char × List Char)) : List _)

/-- The positional fallback key `fmt.Sprintf("idx_%d", i)`. -/
def idxKey (i : Nat) : List Char :=
  "idx_".toList ++ Nat.toDigits 10 i

/-- Go's `fmt.Sprintf("%.0f", x)` for an integer-valued float. -/
def intToChars (n : Int) : List Char :=
  if n < 0 then '-' :: Nat.toDigits 10 (-n).toNat else Nat.toDigits 10 n.toNat

/-- Web images of one candidate: entries of `cand[12][1]` with a non-empty
url at `[0][0][0]`, title at `[7][0]`, alt at `[0][4]`. -/
def parseWebImages (proxy : List Char) (data : Json) : List Image :=
  match data with
  | Json.arr items =>
      items.foldr (fun item acc =>
        let url := (jStr (GetNestedValue item
          [Key.idx 0, Key.idx 0, Key.idx 0])).getD []
        if url = [] then acc
        else
          { URL := url,
            Title := (jStr (GetNestedValue item [Key.idx 7, Key.idx 0])).getD [],
            Alt := (jStr (GetNestedValue item [Key.idx 0, Key.idx 4])).getD [],
            Proxy := proxy } :: acc) []
  | _ => []

/-- Generated images of one candidate: entries of `cand[12][7][0]` with a
non-empty url at `[0][3][3]`, numbered title from `[3][6]`, alt at
`[3][5][0]`. -/
def parseGenImages (proxy : List Char) (data : Json) : List Image :=
  match data with
  | Json.arr items =>
      items.foldr (fun item acc =>
        let url := (jStr (GetNestedValue item
          [Key.idx 0, Key.idx 3, Key.idx 3])).getD []
        if url = [] then acc
        else
          let imgNum := (jNum (GetNestedValue item [Key.idx 3, Key.idx 6])).getD 0
          { URL := url,
            Title := if imgNum ≠ 0 then
                "[Generated Image ".toList ++ intToChars imgNum ++ "]".toList
              else "[Generated Image]".toList,
            Alt := (jStr (GetNestedValue item
              [Key.idx 3, Key.idx 5, Key.idx 0])).getD [],
            Proxy := proxy } :: acc) []
  | _ => []

/-- The body of the candidate loop of `processFrame` for one entry at
position `i`: skip when the candidate id is missing or empty; otherwise
record the id in the chat state, project text/thoughts/images, compute the
deltas against the per-candidate accumulated state (id key first, `idx_i`
key as fallback when the stored text is empty), and store the new
accumulated values under both keys. -/
def processCandidate (proxy : List Char) (i : Nat) (candidateData : Json)
    (chat : Option ChatState) (lastTexts lastThoughts : SMap) :
    Option Candidate × Option ChatState × SMap × SMap :=
  let rcid := (jStr (GetNestedValue candidateData [Key.idx 0])).getD []
  if rcid = [] then (none, chat, lastTexts, lastThoughts)
  else
    let chat' := match chat with
      | some c => some { c with RCID := rcid }
      | none => none
    let text := (jStr (GetNestedValue candidateData
      [Key.idx 1, Key.idx 0])).getD []
    let thoughts := (jStr (GetNestedValue candidateData
      [Key.idx 37, Key.idx 0, Key.idx 0])).getD []
    let webImages := parseWebImages proxy
      (GetNestedValue candidateData [Key.idx 12, Key.idx 1])
    let generatedImages := parseGenImages proxy
      (GetNestedValue candidateData [Key.idx 12, Key.idx 7, Key.idx 0])
    let lastSentText := if mapGet lastTexts rcid = []
      then mapGet lastTexts (idxKey i) else mapGet lastTexts rcid
    let isFinal := match GetNestedValue candidateData [Key.idx 2] with
      | Json.arr _ => true
      | _ => decide
          (((jNum (GetNestedValue candidateData [Key.idx 8, Key.idx 0])).getD 0)
            = 2)
    let td := GetDeltaByFPLen text lastSentText isFinal
    let lastSentThought := if mapGet lastThoughts rcid = []
      then mapGet lastThoughts (idxKey i) else mapGet lastThoughts rcid
    let th := if thoughts = [] then (([] : List Char), ([] : List Char))
      else GetDeltaByFPLen thoughts lastSentThought isFinal
    (some { RCID := rcid, Text := td.2, TextDelta := td.1, Thoughts := th.2,
            ThoughtsDelta := th.1, WebImages := webImages,
            GeneratedImages := generatedImages },
     chat',
     mapSet (mapSet lastTexts rcid td.2) (idxKey i) td.2,
     mapSet (mapSet lastThoughts rcid th.2) (idxKey i) th.2)

/-- The candidate loop of `processFrame`, threading the chat state and the
per-candidate accumulators left to right. -/
def processCandidates (proxy : List Char) :
    List Json → Nat → Option ChatState → SMap → SMap →
    List Candidate × Option ChatState × SMap × SMap
  | [], _, chat, lt, lth => ([], chat, lt, lth)
  | cand :: rest, i, chat, lt, lth =>
      let r := processCandidate proxy i cand chat lt lth
      let rr := processCandidates proxy rest (i + 1) r.2.1 r.2.2.1 r.2.2.2
      (match r.1 with
       | some c => c :: rr.1
       | none => rr.1, rr.2)

/-- The chat-metadata overwrite of `processFrame`: when the frame carries
a metadata array and a chat is attached, replace the chat metadata
wholesale by a 10-slot copy keeping the string entries
(`newMeta := make([]string, 10)`). -/
def chatWithMeta (mData : Json) (chat : Option ChatState) :
    Option ChatState :=
  match mData, chat with
  | Json.arr mSlice, some c =>
      some { c with Metadata := (List.range 10).map (fun i =>
          match mSlice.getD i Json.null with
          | Json.str s => s
          | _ => []) }
  | _, _ => chat

/-- The continuation-token store of `processFrame`: when the frame carries
a context string and the chat metadata has at least 10 slots, write it
into slot 9. -/
def chatWithCtx (ctx : Option (List Char)) (chat : Option ChatState) :
    Option ChatState :=
  match ctx, chat with
  | some s, some c =>
      if 10 ≤ c.Metadata.length then
        some { c with Metadata := c.Metadata.set 9 s }
      else some c
  | _, _ => chat

/-- The function `processFrame`: extract the inner JSON string at offset 2, parse it,
overwrite the chat metadata with a 10-slot string copy of entry 1, store
the continuation token of entry 25 in slot 9, project the candidates of
entry 4, and emit one update whose metadata is an entry-wise string copy
of entry 1 (with the entry count of the frame, not 10) when at least one
candidate had a non-empty id. -/
def processFrame (frame : Json) (chat : Option ChatState)
    (lastTexts lastThoughts : SMap) (proxy : List Char) :
    List ModelOutput × Option ChatState × SMap × SMap :=
  match jStr (GetNestedValue frame [Key.idx 2]) with
  | none => ([], chat, lastTexts, lastThoughts)
  | some str =>
      match jsonDecode str with
      | some (Json.arr partJSON) =>
          let mData := GetNestedValue (Json.arr partJSON) [Key.idx 1]
          let chat2 := chatWithCtx
            (jStr (GetNestedValue (Json.arr partJSON) [Key.idx 25]))
            (chatWithMeta mData chat)
          match GetNestedValue (Json.arr partJSON) [Key.idx 4] with
          | Json.arr candList =>
              let r := processCandidates proxy candList 0 chat2 lastTexts
                lastThoughts
              if r.1 = [] then ([], r.2)
              else
                ([{ Metadata := match mData with
                      | Json.arr mSlice =>
                          mSlice.map (fun v => (jStr v).getD [])
                      | _ => [],
                    Candidates := r.1, Chosen := 0 }],
                 r.2)
          | _ => ([], chat2, lastTexts, lastThoughts)
      | _ => ([], chat, lastTexts, lastThoughts)

/-- The frame loop of `GenerateContentStream` after decoding: feed each
frame to `processFrame`, thread the chat state and accumulators, emit the
outputs in order. -/
def runFrames : List Json → Option ChatState → SMap → SMap → List Char →
    List ModelOutput × Option ChatState
  | [], chat, _, _, _ => ([], chat)
  | f :: fs, chat, lt, lth, proxy =>
      let r := processFrame f chat lt lth proxy
      let rr := runFrames fs r.2.1 r.2.2.1 r.2.2.2 proxy
      (r.1 ++ rr.1, rr.2)

/-- Failure values surfaced by the generate path (Go returns `error`
strings; constructors stand for the distinct messages). -/
inductive GenErr where
  | emptyPrompt
  | httpStatus (code : Nat)
  | uploadFailed (filename : List Char)
  | noContent
deriving DecidableEq

/-- The zero `ModelOutput` value (`var lastOutput ModelOutput`). -/
def zeroOutput : ModelOutput :=
  { Metadata := [], Candidates := [], Chosen := 0 }

/-- The method `GeminiClient.GenerateContent` on a completed stream, as
the code actually behaves.  The worker goroutine registers
`defer close(outChan)` before `defer close(errChan)`, and deferred calls
run last-in-first-out, so `errChan` is closed before `outChan`.  The
caller's `range outChan` therefore only finishes after `errChan` is
already closed, and the final `select` receive on the closed `errChan`
always proceeds with the zero error value: every completed call returns
`(ModelOutput{}, nil)`.  The `return lastOutput, nil` and the
`"no content generated"` error below the select are dead code (and on a
stream error the unbuffered `errChan <- err` send has no receiver, so the
call deadlocks — non-termination is outside this model, which covers
completed streams).  The chat mutations made through the chat pointer by
`processFrame` survive. -/
def generateContentGo (frames : List Json) (chat : Option ChatState)
    (proxy : List Char) : Except GenErr ModelOutput × Option ChatState :=
  let r := runFrames frames chat [] [] proxy
  (Except.ok zeroOutput, r.2)

/-- The method `StartChat`: a fresh session with a 10-slot empty metadata. -/
def startChatState : ChatState :=
  { Metadata := List.replicate 10 [], CID := [], RID := [], RCID := [] }

/-- The method `ChatSession.SendMessage` given the decoded frames of the
response: run `GenerateContent` with the session as the chat; on a nil
error with at least 3 metadata entries in the output, copy entries 0-2
into `CID`/`RID`/`RCID` and overwrite the session metadata.  Because
`GenerateContent` always returns the zero `ModelOutput` (see
`generateContentGo`), that overwrite never fires: the session keeps
whatever `processFrame` wrote through the chat pointer. -/
def sendMessageGo (sess : ChatState) (frames : List Json)
    (proxy : List Char) : Except GenErr ModelOutput × ChatState :=
  let r := generateContentGo frames (some sess) proxy
  let sess1 := r.2.getD sess
  match r.1 with
  | Except.ok o =>
      if 3 ≤ o.Metadata.length then
        (Except.ok o,
         { sess1 with
            CID := o.Metadata.getD 0 [],
            RID := o.Metadata.getD 1 [],
            RCID := o.Metadata.getD 2 [],
            Metadata := o.Metadata })
      else (Except.ok o, sess1)
  | Except.error e => (Except.error e, sess1)

/-- A response frame whose metadata array has exactly 3 entries and whose
single candidate `rc1` is final with text `"hi"`. -/
def c5Frame : Json :=
  Json.arr [Json.null, Json.null,
    Json.str
      "[null,[\"c1\",\"r1\",\"rc1\"],null,null,[[\"rc1\",[\"hi\"],[]]]]".toList]

/-- A response frame like `c5Frame` but whose metadata array has exactly
10 entries with non-empty entries 0-2. -/
def c5Frame10 : Json :=
  Json.arr [Json.null, Json.null,
    Json.str
      ("[null,[\"c1\",\"r1\",\"rc1\",\"m3\",\"m4\",\"m5\",\"m6\",\"m7\"," ++
       "\"m8\",\"m9\"],null,null,[[\"rc1\",[\"hi\"],[]]]]").toList]

/-- The single candidate produced by `c5Frame10`. -/
def c5Cand : Candidate :=
  { RCID := "rc1".toList, Text := "hi".toList, TextDelta := "hi".toList,
    Thoughts := [], ThoughtsDelta := [], WebImages := [],
    GeneratedImages := [] }

/-- A response frame with a valid final candidate `rc1` whose metadata
array holds only nulls. -/
def c5FrameNullMeta : Json :=
  Json.arr [Json.null, Json.null,
    Json.str
      "[null,[null,null,null],null,null,[[\"rc1\",[\"hi\"],[]]]]".toList]

/-- The last update emitted by the stream for `c5Frame` (discarded by the
collect wrapper). -/
def c9LastOutput : ModelOutput :=
  { Metadata := ["c1".toList, "r1".toList, "rc1".toList],
    Candidates := [c5Cand],
    Chosen := 0 }

/-! ### Generate-call control flow (upload step) and output accessors -/

/-- Outbound HTTP requests issued by one generate call, in order. -/
inductive Req where
  | batch
  | upload (filename : List Char)
  | generate
deriving DecidableEq

/-- The network environment of one generate call: the result of the n-th
`BatchExecute` activity call (`none` = HTTP 200) and the result of
`UploadFile` per file name. -/
structure Env where
  batchRes : Nat → Option GenErr
  uploadRes : List Char → Except GenErr (List Char)

/-- The per-file upload loop of `GenerateContentStream`: upload each file
in order, recording the request; the first failing upload aborts the loop
and surfaces its error; successes collect `(uploadedURL, filename)`
references. -/
def runUploads (env : Env) : List (List Char) → List Req →
    List Req × Except GenErr (List (List Char × List Char))
  | [], acc => (acc, Except.ok [])
  | f :: fs, acc =>
      match env.uploadRes f with
      | Except.error e => (acc ++ [Req.upload f], Except.error e)
      | Except.ok u =>
          let r := runUploads env fs (acc ++ [Req.upload f])
          match r.2 with
          | Except.error e => (r.1, Except.error e)
          | Except.ok rest => (r.1, Except.ok ((u, f) :: rest))

/-- The request sequence of `GenerateContentStream` up to (and including)
the POST to the generate endpoint, with the error aborting it, if any:
reject an empty prompt; with files attached, run the activity
`BatchExecute`, the upload loop, and the second activity `BatchExecute`,
aborting on the first failure; only then issue the generate request.
Files are given by their names (`ParseFileName`); the streamed response
after the generate request is modelled separately. -/
def generateCallRequests (env : Env) (prompt : List Char)
    (files : List (List Char)) : List Req × Option GenErr :=
  if prompt = [] then ([], some GenErr.emptyPrompt)
  else if files = [] then ([Req.generate], none)
  else
    match env.batchRes 0 with
    | some e => ([Req.batch], some e)
    | none =>
        let r := runUploads env files [Req.batch]
        match r.2 with
        | Except.error e => (r.1, some e)
        | Except.ok _ =>
            match env.batchRes 1 with
            | some e => (r.1 ++ [Req.batch], some e)
            | none => (r.1 ++ [Req.batch, Req.generate], none)

/-- An environment whose every upload fails. -/
def c8Env : Env :=
  { batchRes := fun _ => none,
    uploadRes := fun f => Except.error (GenErr.uploadFailed f) }

/-- Go slice indexing `xs[i]` with an `int` index: a value for an index in
range, `none` for the run-time panic outside it. -/
def goIndexList (xs : List Candidate) (i : Int) : Option Candidate :=
  if 0 ≤ i ∧ i < (xs.length : Int) then xs.get? i.toNat else none

/-- The method `ModelOutput.String()`: guarded by `len(m.Candidates) > m.Chosen`
only, so the indexing may still panic (`none`) on a negative `Chosen`. -/
def ModelOutput.goString (m : ModelOutput) : Option (List Char) :=
  if (m.Candidates.length : Int) > m.Chosen then
    (goIndexList m.Candidates m.Chosen).map Candidate.Text
  else some []

/-- The method `ModelOutput.Text()`: identical body to `String()`. -/
def ModelOutput.goText (m : ModelOutput) : Option (List Char) :=
  if (m.Candidates.length : Int) > m.Chosen then
    (goIndexList m.Candidates m.Chosen).map Candidate.Text
  else some []

/-- The method `ModelOutput.Images()`: web images then generated images of the chosen
candidate; `nil` (modelled as the empty list) outside the guard. -/
def ModelOutput.goImages (m : ModelOutput) : Option (List Image) :=
  if (m.Candidates.length : Int) > m.Chosen then
    match goIndexList m.Candidates m.Chosen with
    | none => none
    | some c => some (c.WebImages ++ c.GeneratedImages)
  else some []

/-- A `ModelOutput` with one candidate and `Chosen = -1`. -/
def c10Out : ModelOutput :=
  { Metadata := [], Candidates := [c5Cand], Chosen := -1 }

/-- A non-final frame carrying candidate `r1` with text `"Hello **"`. -/
def c2Frame1 : Json :=
  Json.arr [Json.null, Json.null,
    Json.str
      "[null,[\"c\",\"r\",\"rc\"],null,null,[[\"r1\",[\"Hello **\"]]]]".toList]

/-- A final frame carrying candidate `r1` with text `"Hello *X*"`. -/
def c2Frame2 : Json :=
  Json.arr [Json.null, Json.null,
    Json.str
      "[null,[\"c\",\"r\",\"rc\"],null,null,[[\"r1\",[\"Hello *X*\"],[]]]]".toList]

/-! ### Byte-level model of the frame decoder

The rune-level model above is exact whenever the buffer is valid UTF-8 —
there every cut point the decoder produces is rune-aligned.  An arbitrary
byte-level chunking, however, can split a multi-byte character across
chunks, and Go then decodes the truncated bytes with U+FFFD replacement
runes whose UTF-8 re-encoding is longer than the bytes present, so the
byte count returned by `getCharCountForUTF16Units` can overrun the buffer
and the payload slice panics.  The following byte-level model (strings as
`List Nat` of byte values, panic as `none`) captures exactly that. -/

/-- The replacement character U+FFFD (`utf8.RuneError`). -/
def uFFFD : Char := Char.ofNat 0xFFFD

/-- A UTF-8 continuation byte `10xxxxxx`. -/
def utf8Cont (b : Nat) : Bool := 0x80 ≤ b && b ≤ 0xBF

/-- Go's `utf8.RuneStart`: any byte that is not a continuation byte. -/
def runeStart (b : Nat) : Bool := !(0x80 ≤ b && b ≤ 0xBF)

/-- Go's `utf8.DecodeRune` on a byte sequence: one decoded rune and the
number of bytes it spans; any invalid, overlong, surrogate, out-of-range
or truncated encoding yields `(U+FFFD, 1)`; `none` only on empty input. -/
def utf8DecodeOne : List Nat → Option (Char × Nat)
  | [] => none
  | b0 :: rest =>
      if b0 < 0x80 then some (Char.ofNat b0, 1)
      else if 0xC2 ≤ b0 ∧ b0 ≤ 0xDF then
        match rest with
        | b1 :: _ =>
            if utf8Cont b1 then
              some (Char.ofNat ((b0 - 0xC0) * 0x40 + (b1 - 0x80)), 2)
            else some (uFFFD, 1)
        | _ => some (uFFFD, 1)
      else if 0xE0 ≤ b0 ∧ b0 ≤ 0xEF then
        match rest with
        | b1 :: b2 :: _ =>
            if (if b0 = 0xE0 then 0xA0 else 0x80) ≤ b1 ∧
                b1 ≤ (if b0 = 0xED then 0x9F else 0xBF) ∧ utf8Cont b2 then
              some (Char.ofNat ((b0 - 0xE0) * 0x1000 + (b1 - 0x80) * 0x40 +
                (b2 - 0x80)), 3)
            else some (uFFFD, 1)
        | _ => some (uFFFD, 1)
      else if 0xF0 ≤ b0 ∧ b0 ≤ 0xF4 then
        match rest with
        | b1 :: b2 :: b3 :: _ =>
            if (if b0 = 0xF0 then 0x90 else 0x80) ≤ b1 ∧
                b1 ≤ (if b0 = 0xF4 then 0x8F else 0xBF) ∧ utf8Cont b2 ∧
                utf8Cont b3 then
              some (Char.ofNat ((b0 - 0xF0) * 0x40000 + (b1 - 0x80) * 0x1000 +
                (b2 - 0x80) * 0x40 + (b3 - 0x80)), 4)
            else some (uFFFD, 1)
        | _ => some (uFFFD, 1)
      else some (uFFFD, 1)

/-- Fuel-indexed loop of Go's `[]rune(s)` conversion (each step consumes at
least one byte, so fuel = byte count suffices). -/
def goDecodeRunesAux : Nat → List Nat → List Char
  | 0, _ => []
  | fuel + 1, bs =>
      match utf8DecodeOne bs with
      | none => []
      | some (c, n) => c :: goDecodeRunesAux fuel (bs.drop n)

/-- Go's `[]rune(s)`: decode a byte string to runes, one U+FFFD per
invalid byte. -/
def goDecodeRunes (bs : List Nat) : List Char :=
  goDecodeRunesAux bs.length bs

/-- UTF-8 encoded length of one rune. -/
def utf8EncLen (c : Char) : Nat :=
  if c.toNat < 0x80 then 1
  else if c.toNat < 0x800 then 2
  else if c.toNat < 0x10000 then 3
  else 4

/-- Go's `len(string(runes))`: total UTF-8 re-encoded length. -/
def goStrLen (cs : List Char) : Nat :=
  (cs.map utf8EncLen).sum

/-- Byte-level `getCharCountForUTF16Units`: decode to runes, run the unit
scan, and return `len(string(runes[:count]))` — which, after U+FFFD
replacement of invalid bytes, can exceed the number of bytes present
(U+FFFD re-encodes as 3 bytes). -/
def getCharCountForUTF16UnitsBytes (s : List Nat) (n : Nat) : Nat × Nat :=
  let runes := goDecodeRunes s
  let r := utf16Scan runes 0 n
  (goStrLen (runes.take r.1), r.2)

/-- The frame loop's `isSpace` on bytes. -/
def isSpaceB (b : Nat) : Bool := b = 32 || b = 9 || b = 10 || b = 13

/-- ASCII digit byte. -/
def isDigitB (b : Nat) : Bool := 48 ≤ b && b ≤ 57

/-- `strconv.Atoi` on a digit-byte run. -/
def natOfDigitsB (ds : List Nat) : Nat :=
  ds.foldl (fun a b => a * 10 + (b - 48)) 0

/-- Leading-whitespace trim of `strings.TrimSpace` at the byte level:
decode the first rune, drop its bytes while it is Unicode whitespace. -/
def trimLeftBAux : Nat → List Nat → List Nat
  | 0, bs => bs
  | fuel + 1, bs =>
      match utf8DecodeOne bs with
      | none => bs
      | some (c, n) =>
          if unicodeIsSpace c then trimLeftBAux fuel (bs.drop n) else bs

/-- Scan backwards from index `i` down to `lim` for a rune-start byte. -/
def scanBack (bs : List Nat) (lim : Nat) : Nat → Option Nat
  | 0 => if 0 < lim then none
      else if runeStart (bs.getD 0 0) then some 0 else none
  | i + 1 => if i + 1 < lim then none
      else if runeStart (bs.getD (i + 1) 0) then some (i + 1)
      else scanBack bs lim i

/-- Go's `utf8.DecodeLastRuneInString`: find the last rune-start byte
within the final four bytes, decode from it, and fall back to
`(U+FFFD, 1)` when the decoded size does not reach the end. -/
def utf8DecodeLast (bs : List Nat) : Option (Char × Nat) :=
  if bs.length = 0 then none
  else
    let e := bs.length
    let lastB := bs.getD (e - 1) 0
    if lastB < 0x80 then some (Char.ofNat lastB, 1)
    else
      let lim := e - 4
      let start :=
        match (if 2 ≤ e then scanBack bs lim (e - 2) else none) with
        | some i => i
        | none => if lim = 0 then 0 else lim - 1
      match utf8DecodeOne (bs.drop start) with
      | some (r, size) =>
          if start + size = e then some (r, size) else some (uFFFD, 1)
      | none => none

/-- Trailing-whitespace trim of `strings.TrimSpace` at the byte level. -/
def trimRightBAux : Nat → List Nat → List Nat
  | 0, bs => bs
  | fuel + 1, bs =>
      match utf8DecodeLast bs with
      | none => bs
      | some (c, n) =>
          if unicodeIsSpace c then
            trimRightBAux fuel (bs.take (bs.length - n))
          else bs

/-- `strings.TrimSpace` on bytes: trim leading then trailing whitespace
runes; invalid bytes decode to U+FFFD, which is not whitespace, and the
kept bytes are the original ones (no re-encoding). -/
def trimSpaceB (bs : List Nat) : List Nat :=
  trimRightBAux bs.length (trimLeftBAux bs.length bs)

/-- Go's `json.Unmarshal` on payload bytes: the decoder consumes UTF-8;
decoding the bytes to runes first is equivalent on the payloads at issue
(invalid bytes inside string literals become U+FFFD either way, and
outside string literals they are syntax errors either way). -/
def jsonDecodeB (bs : List Nat) : Option Json :=
  jsonDecode (goDecodeRunes bs)

/-- Byte-level payload handling of one frame (trim, decode, splice). -/
def handleChunkB (decode : List Nat → Option Json) (chunk : List Nat) :
    List Json :=
  let t := trimSpaceB chunk
  if t = [] then []
  else
    match decode t with
    | none => []
    | some (Json.arr xs) => xs
    | some v => [v]

/-- Byte-level frame loop.  Identical control flow to `parseFramesAux`,
except that the payload span is the byte count returned by
`getCharCountForUTF16UnitsBytes`, and when that count exceeds the bytes
available the slice `content[startContent:endPos]` panics — modelled as
`none`. -/
def parseFramesBytesAux (decode : List Nat → Option Json) :
    Nat → List Nat → Option (List Json × List Nat)
  | 0, content => some ([], content)
  | fuel + 1, content =>
      let afterWs := content.dropWhile isSpaceB
      if afterWs = [] then some ([], [])
      else
        let ds := afterWs.takeWhile isDigitB
        let rest := afterWs.drop ds.length
        if ds = [] ∨ rest.head? ≠ some 10 then some ([], afterWs)
        else
          let n := natOfDigitsB ds
          let r := getCharCountForUTF16UnitsBytes rest n
          if r.2 < n then some ([], afterWs)
          else if rest.length < r.1 then none
          else
            match parseFramesBytesAux decode fuel (rest.drop r.1) with
            | none => none
            | some res =>
                some (handleChunkB decode (rest.take r.1) ++ res.1, res.2)

/-- Byte-level `ParseResponseByFrame`; `none` is the run-time panic. -/
def ParseResponseByFrameBytes (decode : List Nat → Option Json)
    (content : List Nat) : Option (List Json × List Nat) :=
  parseFramesBytesAux decode content.length content

/-- Byte-level incremental consumption: fold the byte chunks through the
decoder carrying the remainder; a panic in any call aborts the run. -/
def feedChunksBytes (decode : List Nat → Option Json)
    (chunks : List (List Nat)) : Option (List Json × List Nat) :=
  chunks.foldl (fun acc chunk =>
    match acc with
    | none => none
    | some fr =>
        match ParseResponseByFrameBytes decode (fr.2 ++ chunk) with
        | none => none
        | some r => some (fr.1 ++ r.1, r.2)) (some ([], []))

/-! The development now turns to the verified properties. -/

/-! ### List helper lemmas -/

theorem isPrefixOf_true_iff {a b : List Char} :
    a.isPrefixOf b = true ↔ ∃ t, a ++ t = b := by
  rw [ List.isPrefixOf_iff_prefix]
  exact Iff.rfl

theorem dropWhile_append_of_ne {p : α → Bool} {a : List α} (b : List α)
    (h : a.dropWhile p ≠ []) : (a ++ b).dropWhile p = a.dropWhile p ++ b := by
  induction a with
  | nil => simp [List.dropWhile] at h
  | cons c a ih =>
      by_cases hc : p c
      · simp only [List.dropWhile_cons_of_pos hc] at h
        simp only [List.cons_append, List.dropWhile_cons_of_pos hc, ih h]

      · simp [List.dropWhile_cons_of_neg hc]

theorem dropWhile_append_of_eq {p : α → Bool} {a : List α} (b : List α)
    (h : a.dropWhile p = []) : (a ++ b).dropWhile p = b.dropWhile p := by
  induction a with
  | nil => simp
  | cons c a ih =>
      by_cases hc : p c
      · simp only [List.dropWhile_cons_of_pos hc] at h
        simp only [List.cons_append, List.dropWhile_cons_of_pos hc, ih h]
      · simp [List.dropWhile_cons_of_neg hc] at h

theorem length_dropWhile_le' (p : α → Bool) (l : List α) :
    (l.dropWhile p).length ≤ l.length := by
  induction l with
  | nil => simp
  | cons c l ih =>
      by_cases hc : p c
      · simp only [List.dropWhile_cons_of_pos hc]
        exact Nat.le_succ_of_le ih
      · simp [List.dropWhile_cons_of_neg hc]

theorem dropWhile_head_false {p : α → Bool} {l : List α} {c : α}
    (h : (l.dropWhile p).head? = some c) : p c = false := by
  induction l with
  | nil => simp [List.dropWhile] at h
  | cons x l ih =>
      by_cases hx : p x
      · simp only [List.dropWhile_cons_of_pos hx] at h
        exact ih h
      · simp only [List.dropWhile_cons_of_neg hx, List.head?_cons,
          Option.some.injEq] at h
        subst h
        exact Bool.of_not_eq_true hx

theorem dropWhile_idem {p : α → Bool} (l : List α) :
    (l.dropWhile p).dropWhile p = l.dropWhile p := by
  cases h : l.dropWhile p with
  | nil => rfl
  | cons c r =>
      have hc : p c = false := dropWhile_head_false (by rw [h]; rfl)
      exact List.dropWhile_cons_of_neg (by simp [hc])

theorem drop_takeWhile_length (p : α → Bool) (l : List α) :
    l.drop (l.takeWhile p).length = l.dropWhile p := by
  induction l with
  | nil => rfl
  | cons c l ih =>
      by_cases hc : p c
      · simp only [List.takeWhile_cons_of_pos hc,
          List.dropWhile_cons_of_pos hc, List.length_cons, List.drop_succ_cons]
        exact ih
      · simp [List.takeWhile_cons_of_neg hc, List.dropWhile_cons_of_neg hc]

theorem takeWhile_run_stop {p : α → Bool} {ds rest : List α}
    (hds : ∀ c ∈ ds, p c = true)
    (hrest : ∀ c, rest.head? = some c → p c = false) :
    (ds ++ rest).takeWhile p = ds := by
  induction ds with
  | nil =>
      cases rest with
      | nil => rfl
      | cons c r =>
          have := hrest c rfl
          simp [List.takeWhile_cons_of_neg, this]
  | cons d ds ih =>
      have hd : p d = true := hds d (by simp)
      simp only [List.cons_append, List.takeWhile_cons_of_pos hd,
        List.cons.injEq, true_and]
      exact ih (fun c hc => hds c (by simp [hc]))

theorem take_append_of_le {a : List α} (b : List α) {n : Nat}
    (h : n ≤ a.length) : (a ++ b).take n = a.take n := by
  rw [List.take_append_eq_append_take, Nat.sub_eq_zero_of_le h,
    List.take_zero, List.append_nil]

theorem drop_append_of_le {a : List α} (b : List α) {n : Nat}
    (h : n ≤ a.length) : (a ++ b).drop n = a.drop n ++ b := by
  rw [List.drop_append_eq_append_drop, Nat.sub_eq_zero_of_le h,
    List.drop_zero]

/-! ### UTF-16 scan lemmas -/

theorem utf16Scan_le_target : ∀ (s : List Char) (u n : Nat), u ≤ n →
    (utf16Scan s u n).2 ≤ n := by
  intro s
  induction s with
  | nil => intro u n h; exact h
  | cons c rest ih =>
      intro u n h
      simp only [utf16Scan]
      by_cases h1 : u ≥ n
      · simpa [h1]
      · simp only [if_neg h1]
        by_cases h2 : u + utf16Units c > n
        · simpa [h2]
        · simp only [if_neg h2]
          exact ih _ n (Nat.le_of_not_lt h2)

theorem utf16Scan_count_le : ∀ (s : List Char) (u n : Nat),
    (utf16Scan s u n).1 ≤ s.length := by
  intro s
  induction s with
  | nil => intro u n; exact Nat.le_refl 0
  | cons c rest ih =>
      intro u n
      simp only [utf16Scan]
      by_cases h1 : u ≥ n
      · simp [h1]
      · simp only [if_neg h1]
        by_cases h2 : u + utf16Units c > n
        · simp [h2]
        · simp only [if_neg h2, List.length_cons]
          exact Nat.succ_le_succ (ih _ n)

theorem utf16Scan_append_of_done : ∀ (s t : List Char) (u n : Nat),
    (utf16Scan s u n).2 = n → utf16Scan (s ++ t) u n = utf16Scan s u n := by
  intro s
  induction s with
  | nil =>
      intro t u n h
      simp only [utf16Scan] at h
      subst h
      cases t with
      | nil => rfl
      | cons c r => simp [utf16Scan]
  | cons c rest ih =>
      intro t u n h
      simp only [utf16Scan] at h ⊢
      by_cases h1 : u ≥ n
      · simp [h1]
      · simp only [if_neg h1] at h ⊢
        by_cases h2 : u + utf16Units c > n
        · simp only [if_pos h2] at h
          exact absurd h (Nat.ne_of_lt (Nat.lt_of_not_le h1))
        · simp only [if_neg h2] at h ⊢
          rw [List.append_eq, ih t _ n h]

theorem utf16Scan_units_take : ∀ (s : List Char) (u n : Nat), u ≤ n →
    (utf16Scan s u n).2 = u + sumUnits (s.take (utf16Scan s u n).1) := by
  intro s
  induction s with
  | nil => intro u n _; simp [utf16Scan, sumUnits]
  | cons c rest ih =>
      intro u n hu
      simp only [utf16Scan]
      by_cases h1 : u ≥ n
      · simp [h1, sumUnits]
      · simp only [if_neg h1]
        by_cases h2 : u + utf16Units c > n
        · simp [h2, sumUnits]
        · simp only [if_neg h2, List.take_succ_cons]
          have := ih (u + utf16Units c) n (Nat.le_of_not_lt h2)
          rw [this]
          simp [sumUnits]
          omega

theorem utf16Scan_le_avail : ∀ (s : List Char) (u n : Nat),
    (utf16Scan s u n).2 ≤ u + sumUnits s := by
  intro s
  induction s with
  | nil => intro u n; simp [utf16Scan, sumUnits]
  | cons c rest ih =>
      intro u n
      simp only [utf16Scan]
      by_cases h1 : u ≥ n
      · simp [sumUnits, h1]
      · simp only [if_neg h1]
        by_cases h2 : u + utf16Units c > n
        · simp [sumUnits, h2]
        · simp only [if_neg h2]
          have := ih (u + utf16Units c) n
          simp only [sumUnits, List.map_cons, List.sum_cons] at *
          omega

/-! ### Unfolding and fuel-independence of the frame-decoder loop -/

theorem parseFramesAux_nil (decode : List Char → Option Json) :
    ∀ f, parseFramesAux decode f [] = ([], []) := by
  intro f
  cases f <;> rfl

theorem parseFramesAux_congr (decode : List Char → Option Json) :
    ∀ f g c, c.length ≤ f → c.length ≤ g →
      parseFramesAux decode f c = parseFramesAux decode g c := by
  intro f
  induction f with
  | zero =>
      intro g c h0 _
      have hc : c = [] := List.length_eq_zero.mp (Nat.le_zero.mp h0)
      subst hc
      rw [parseFramesAux_nil, parseFramesAux_nil]
  | succ f ih =>
      intro g c hf hg
      cases g with
      | zero =>
          have hc : c = [] := List.length_eq_zero.mp (Nat.le_zero.mp hg)
          subst hc
          rw [parseFramesAux_nil, parseFramesAux_nil]
      | succ g =>
          simp only [parseFramesAux]
          by_cases hA : c.dropWhile isSpace = []
          · simp [hA]
          · simp only [if_neg hA]
            by_cases hb : (c.dropWhile isSpace).takeWhile isDigit = [] ∨
                ((c.dropWhile isSpace).drop
                  ((c.dropWhile isSpace).takeWhile isDigit).length).head? ≠
                  some '\n'
            · simp only [if_pos hb]
            · simp only [if_neg hb]
              push_neg at hb
              by_cases hinc :
                  (getCharCountForUTF16Units
                    ((c.dropWhile isSpace).drop
                      ((c.dropWhile isSpace).takeWhile isDigit).length)
                    (natOfDigits ((c.dropWhile isSpace).takeWhile isDigit))).2 <
                  natOfDigits ((c.dropWhile isSpace).takeWhile isDigit)
              · simp only [if_pos hinc]
              · simp only [if_neg hinc]
                have h1 : ((c.dropWhile isSpace).takeWhile isDigit).length ≥ 1 :=
                  List.length_pos.mpr hb.1
                have h2 : (c.dropWhile isSpace).length ≤ c.length :=
                  length_dropWhile_le' isSpace c
                have h3 : (((c.dropWhile isSpace).drop
                    ((c.dropWhile isSpace).takeWhile isDigit).length).drop
                    (getCharCountForUTF16Units
                      ((c.dropWhile isSpace).drop
                        ((c.dropWhile isSpace).takeWhile isDigit).length)
                      (natOfDigits
                        ((c.dropWhile isSpace).takeWhile isDigit))).1).length ≤
                    c.length - 1 := by
                  simp only [List.length_drop]
                  omega
                rw [ih g _ (by omega) (by omega)]

/-- One unfolding step of `ParseResponseByFrame`, stated with the loop's
local values (`afterWs`, the marker digits, the rest, the declared length,
the scan result) abstracted by defining equations. -/
theorem parse_step (decode : List Char → Option Json)
    (content afterWs ds rest : List Char) (n cnt units : Nat)
    (hA : afterWs = content.dropWhile isSpace)
    (hds : ds = afterWs.takeWhile isDigit)
    (hrest : rest = afterWs.drop ds.length)
    (hn : n = natOfDigits ds)
    (hcnt : cnt = (getCharCountForUTF16Units rest n).1)
    (hunits : units = (getCharCountForUTF16Units rest n).2) :
    ParseResponseByFrame decode content =
      if afterWs = [] then ([], [])
      else if ds = [] ∨ rest.head? ≠ some '\n' then ([], afterWs)
      else if units < n then ([], afterWs)
      else (handleChunk decode (rest.take cnt) ++
              (ParseResponseByFrame decode (rest.drop cnt)).1,
            (ParseResponseByFrame decode (rest.drop cnt)).2) := by
  subst hA hds hrest hn hcnt hunits
  cases content with
  | nil => simp [ParseResponseByFrame, parseFramesAux]
  | cons c cs =>
      show parseFramesAux decode (cs.length + 1) (c :: cs) = _
      simp only [parseFramesAux]
      by_cases hA : (c :: cs).dropWhile isSpace = []
      · simp [hA]
      · simp only [if_neg hA]
        by_cases hb : ((c :: cs).dropWhile isSpace).takeWhile isDigit = [] ∨
            (((c :: cs).dropWhile isSpace).drop
              (((c :: cs).dropWhile isSpace).takeWhile isDigit).length).head? ≠
              some '\n'
        · simp only [if_pos hb]
        · simp only [if_neg hb]
          push_neg at hb
          by_cases hinc :
              (getCharCountForUTF16Units
                (((c :: cs).dropWhile isSpace).drop
                  (((c :: cs).dropWhile isSpace).takeWhile isDigit).length)
                (natOfDigits
                  (((c :: cs).dropWhile isSpace).takeWhile isDigit))).2 <
              natOfDigits (((c :: cs).dropWhile isSpace).takeWhile isDigit)
          · simp only [if_pos hinc]
          · simp only [if_neg hinc]
            have h1 : (((c :: cs).dropWhile isSpace).takeWhile isDigit).length ≥ 1 :=
              List.length_pos.mpr hb.1
            have h2 : ((c :: cs).dropWhile isSpace).length ≤ cs.length + 1 :=
              length_dropWhile_le' isSpace (c :: cs)
            have h3 := List.length_drop
              (((c :: cs).dropWhile isSpace).takeWhile isDigit).length
              ((c :: cs).dropWhile isSpace)
            rw [parseFramesAux_congr decode cs.length _ _
              (by simp only [List.length_drop]; omega) (le_refl _)]
            rfl

theorem parse_nil (decode : List Char → Option Json) :
    ParseResponseByFrame decode [] = ([], []) := rfl

/-- The function `ParseResponseByFrame` depends on its input only through the input with
leading whitespace removed. -/
theorem parse_eq_of_dropWhile (decode : List Char → Option Json)
    {c c' : List Char} (h : c.dropWhile isSpace = c'.dropWhile isSpace) :
    ParseResponseByFrame decode c = ParseResponseByFrame decode c' := by
  rw [parse_step decode c _ _ _ _ _ _ rfl rfl rfl rfl rfl rfl,
      parse_step decode c' _ _ _ _ _ _ rfl rfl rfl rfl rfl rfl, h]

/-- Two-chunk decomposition: decoding `a ++ b` in one shot equals decoding
`a`, then decoding its remainder prepended to `b`, concatenating the frame
lists. -/
theorem parse_append (decode : List Char → Option Json) :
    ∀ (N : Nat) (a b : List Char), a.length ≤ N →
    ParseResponseByFrame decode (a ++ b) =
      ((ParseResponseByFrame decode a).1 ++
         (ParseResponseByFrame decode
           ((ParseResponseByFrame decode a).2 ++ b)).1,
       (ParseResponseByFrame decode
         ((ParseResponseByFrame decode a).2 ++ b)).2) := by
  intro N
  induction N with
  | zero =>
      intro a b h
      have ha : a = [] := List.length_eq_zero.mp (Nat.le_zero.mp h)
      subst ha
      simp [parse_nil]
  | succ N ih =>
      intro a b hlen
      by_cases hA : a.dropWhile isSpace = []
      · have h1 : ParseResponseByFrame decode a = ([], []) := by
          rw [parse_step decode a _ _ _ _ _ _ rfl rfl rfl rfl rfl rfl,
            if_pos hA]
        have h2 : ParseResponseByFrame decode (a ++ b) =
            ParseResponseByFrame decode b :=
          parse_eq_of_dropWhile decode (dropWhile_append_of_eq b hA)
        rw [h1, h2]
        simp
      · have hABdw : (a ++ b).dropWhile isSpace = a.dropWhile isSpace ++ b :=
          dropWhile_append_of_ne b hA
        have hAidem : (a.dropWhile isSpace).dropWhile isSpace =
            a.dropWhile isSpace := dropWhile_idem a
        have hstep : ParseResponseByFrame decode (a ++ b) =
            ParseResponseByFrame decode (a.dropWhile isSpace ++ b) := by
          refine parse_eq_of_dropWhile decode ?_
          rw [hABdw, dropWhile_append_of_ne b (by rw [hAidem]; exact hA),
            hAidem]
        have haA : ParseResponseByFrame decode a =
            ParseResponseByFrame decode (a.dropWhile isSpace) :=
          parse_eq_of_dropWhile decode hAidem.symm
        -- loop locals over the whitespace-stripped input
        set A := a.dropWhile isSpace with hAdef
        set ds := A.takeWhile isDigit with hdsdef
        set rest := A.drop ds.length with hrestdef
        set n := natOfDigits ds with hndef
        have hstepA := parse_step decode A A ds rest n
          (getCharCountForUTF16Units rest n).1
          (getCharCountForUTF16Units rest n).2
          hAidem.symm rfl rfl rfl rfl rfl
        by_cases hb : ds = [] ∨ rest.head? ≠ some '\n'
        · have h1 : ParseResponseByFrame decode a = ([], A) := by
            rw [haA, hstepA, if_neg hA, if_pos hb]
          rw [h1, hstep]
          simp
        · push_neg at hb
          by_cases hinc : (getCharCountForUTF16Units rest n).2 < n
          · have h1 : ParseResponseByFrame decode a = ([], A) := by
              rw [haA, hstepA, if_neg hA, if_neg (by push_neg; exact hb),
                if_pos hinc]
            rw [h1, hstep]
            simp
          · -- a complete frame is consumed identically on both inputs
            have hcomp : (getCharCountForUTF16Units rest n).2 = n :=
              Nat.le_antisymm (utf16Scan_le_target rest 0 n (Nat.zero_le n))
                (Nat.le_of_not_lt hinc)
            have h1 : ParseResponseByFrame decode a =
                (handleChunk decode (rest.take (getCharCountForUTF16Units rest n).1) ++
                  (ParseResponseByFrame decode
                    (rest.drop (getCharCountForUTF16Units rest n).1)).1,
                 (ParseResponseByFrame decode
                   (rest.drop (getCharCountForUTF16Units rest n).1)).2) := by
              rw [haA, hstepA, if_neg hA, if_neg (by push_neg; exact hb),
                if_neg hinc]
            have hsplit : ds ++ rest = A := by
              rw [hrestdef, hdsdef, drop_takeWhile_length]
              exact List.takeWhile_append_dropWhile isDigit A
            have hheadAppend : (rest ++ b).head? = some '\n' := by
              cases hr : rest with
              | nil => rw [hr] at hb; simp at hb
              | cons x r =>
                  rw [hr] at hb
                  simp only [List.head?_cons, Option.some.injEq] at hb
                  simp [hb.2]
            have hTW : (A ++ b).takeWhile isDigit = ds := by
              rw [← hsplit, List.append_assoc]
              refine takeWhile_run_stop ?_ ?_
              · intro c hc
                exact List.mem_takeWhile_imp (hdsdef ▸ hc)
              · intro c hc
                rw [hheadAppend] at hc
                cases hc
                decide
            have hDR : (A ++ b).drop ds.length = rest ++ b := by
              rw [← hsplit, List.append_assoc, List.drop_left]
            have hscanEx : getCharCountForUTF16Units (rest ++ b) n =
                getCharCountForUTF16Units rest n :=
              utf16Scan_append_of_done rest b 0 n hcomp
            have hcntle : (getCharCountForUTF16Units rest n).1 ≤ rest.length :=
              utf16Scan_count_le rest 0 n
            have hAB : ParseResponseByFrame decode (A ++ b) =
                (handleChunk decode
                    (rest.take (getCharCountForUTF16Units rest n).1) ++
                  (ParseResponseByFrame decode
                    (rest.drop (getCharCountForUTF16Units rest n).1 ++ b)).1,
                 (ParseResponseByFrame decode
                   (rest.drop (getCharCountForUTF16Units rest n).1 ++ b)).2) := by
              rw [parse_step decode (A ++ b) (A ++ b)
                  ((A ++ b).takeWhile isDigit)
                  ((A ++ b).drop ((A ++ b).takeWhile isDigit).length)
                  (natOfDigits ((A ++ b).takeWhile isDigit)) _ _
                  (by rw [dropWhile_append_of_ne b (by rw [hAidem]; exact hA),
                    hAidem]) rfl rfl rfl rfl rfl]
              rw [if_neg (by simp only [List.append_eq_nil, not_and]; intro h; exact absurd h hA)]
              rw [hTW, hDR, hscanEx, ← hndef]
              rw [if_neg (by push_neg; exact ⟨hb.1, hheadAppend⟩)]
              rw [if_neg (by rw [hcomp]; exact Nat.lt_irrefl n)]
              rw [take_append_of_le b hcntle, drop_append_of_le b hcntle]
            -- induction hypothesis on the tail after the consumed frame
            have hlenA : A.length ≤ a.length := length_dropWhile_le' isSpace a
            have hdsge : 1 ≤ ds.length := List.length_pos.mpr hb.1
            have hrestlen : rest.length = A.length - ds.length := by
              rw [hrestdef, List.length_drop]
            have hbound : (rest.drop (getCharCountForUTF16Units rest n).1).length ≤ N := by
              rw [List.length_drop]
              have hApos : 1 ≤ A.length :=
                List.length_pos.mpr (by rw [hAdef]; exact hA)
              omega
            have hIH := ih (rest.drop (getCharCountForUTF16Units rest n).1) b hbound
            rw [hstep, hAB, h1, hIH]
            simp [List.append_assoc]

/-- The remainder returned by the decoder is stuck: running the decoder on
it again consumes nothing and returns it unchanged. -/
theorem parse_remainder_stuck (decode : List Char → Option Json) :
    ∀ (N : Nat) (c : List Char), c.length ≤ N →
    ParseResponseByFrame decode (ParseResponseByFrame decode c).2 =
      ([], (ParseResponseByFrame decode c).2) := by
  intro N
  induction N with
  | zero =>
      intro c h
      have hc : c = [] := List.length_eq_zero.mp (Nat.le_zero.mp h)
      subst hc
      rfl
  | succ N ih =>
      intro c hlen
      have hstepc := parse_step decode c (c.dropWhile isSpace)
        ((c.dropWhile isSpace).takeWhile isDigit)
        ((c.dropWhile isSpace).drop
          ((c.dropWhile isSpace).takeWhile isDigit).length)
        (natOfDigits ((c.dropWhile isSpace).takeWhile isDigit)) _ _
        rfl rfl rfl rfl rfl rfl
      set A := c.dropWhile isSpace with hAdef
      set ds := A.takeWhile isDigit with hdsdef
      set rest := A.drop ds.length with hrestdef
      set n := natOfDigits ds with hndef
      by_cases hA : A = []
      · rw [hstepc, if_pos hA, parse_nil]
      · by_cases hb : ds = [] ∨ rest.head? ≠ some '\n'
        · rw [hstepc, if_neg hA, if_pos hb]
          have hstepA := parse_step decode A A ds rest n
            (getCharCountForUTF16Units rest n).1
            (getCharCountForUTF16Units rest n).2
            (dropWhile_idem c).symm rfl rfl rfl rfl rfl
          rw [hstepA, if_neg hA, if_pos hb]
        · push_neg at hb
          by_cases hinc : (getCharCountForUTF16Units rest n).2 < n
          · rw [hstepc, if_neg hA, if_neg (by push_neg; exact hb), if_pos hinc]
            have hstepA := parse_step decode A A ds rest n
              (getCharCountForUTF16Units rest n).1
              (getCharCountForUTF16Units rest n).2
              (dropWhile_idem c).symm rfl rfl rfl rfl rfl
            rw [hstepA, if_neg hA, if_neg (by push_neg; exact hb), if_pos hinc]
          · rw [hstepc, if_neg hA, if_neg (by push_neg; exact hb), if_neg hinc]
            have hlenA : A.length ≤ c.length := length_dropWhile_le' isSpace c
            have hdsge : 1 ≤ ds.length := List.length_pos.mpr hb.1
            have hbound :
                (rest.drop (getCharCountForUTF16Units rest n).1).length ≤ N := by
              rw [List.length_drop, hrestdef, List.length_drop]
              have hApos : 1 ≤ A.length := List.length_pos.mpr hA
              omega
            exact ih (rest.drop (getCharCountForUTF16Units rest n).1) hbound

theorem feedChunks_go (decode : List Char → Option Json) :
    ∀ (cs : List (List Char)) (acc : List Json) (rem : List Char),
    ParseResponseByFrame decode rem = ([], rem) →
    cs.foldl (fun acc chunk =>
        let r := ParseResponseByFrame decode (acc.2 ++ chunk)
        (acc.1 ++ r.1, r.2)) (acc, rem) =
      (acc ++ (ParseResponseByFrame decode (rem ++ cs.flatten)).1,
       (ParseResponseByFrame decode (rem ++ cs.flatten)).2) := by
  intro cs
  induction cs with
  | nil =>
      intro acc rem hstuck
      simp [hstuck]
  | cons c cs ih =>
      intro acc rem hstuck
      simp only [List.foldl_cons, List.flatten_cons]
      have hr1 : ParseResponseByFrame decode
          (ParseResponseByFrame decode (rem ++ c)).2 =
          ([], (ParseResponseByFrame decode (rem ++ c)).2) :=
        parse_remainder_stuck decode (rem ++ c).length (rem ++ c) (le_refl _)
      rw [ih (acc ++ (ParseResponseByFrame decode (rem ++ c)).1)
        (ParseResponseByFrame decode (rem ++ c)).2 hr1]
      have h2 : rem ++ (c ++ cs.flatten) = (rem ++ c) ++ cs.flatten := by
        rw [List.append_assoc]
      rw [h2, parse_append decode (rem ++ c).length (rem ++ c) cs.flatten
        (le_refl _)]
      simp [List.append_assoc]

theorem digit_not_space {c : Char} (h : isDigit c = true) :
    isSpace c = false := by
  simp only [isDigit, Bool.and_eq_true, decide_eq_true_eq] at h
  obtain ⟨h1, h2⟩ := h
  have k1 : ('0' : Char).toNat ≤ c.toNat := Char.le_def.mp h1
  have k2 : c.toNat ≤ ('9' : Char).toNat := Char.le_def.mp h2
  simp only [isSpace, Bool.or_eq_false_iff, decide_eq_false_iff_not]
  refine ⟨⟨⟨?_, ?_⟩, ?_⟩, ?_⟩ <;> intro he <;> subst he <;> simp at k1 k2

/-- Shape of the decoder on a buffer that starts with a complete marker:
`ds` a nonempty digit run, `pay` the data from the newline on. -/
theorem parse_marker_shape (decode : List Char → Option Json)
    (ds pay : List Char) (hds : ds ≠ [])
    (hdig : ∀ c ∈ ds, isDigit c = true) (hnl : pay.head? = some '\n') :
    ParseResponseByFrame decode (ds ++ pay) =
      if (getCharCountForUTF16Units pay (natOfDigits ds)).2 < natOfDigits ds
      then ([], ds ++ pay)
      else (handleChunk decode
              (pay.take (getCharCountForUTF16Units pay (natOfDigits ds)).1) ++
            (ParseResponseByFrame decode
              (pay.drop (getCharCountForUTF16Units pay (natOfDigits ds)).1)).1,
           (ParseResponseByFrame decode
             (pay.drop (getCharCountForUTF16Units pay (natOfDigits ds)).1)).2) := by
  have hdw : (ds ++ pay).dropWhile isSpace = ds ++ pay := by
    cases hd : ds with
    | nil => exact absurd hd hds
    | cons d ds' =>
        have : isSpace d = false := digit_not_space (hdig d (by rw [hd]; simp))
        simp only [List.cons_append]
        exact List.dropWhile_cons_of_neg (by simp [this])
  have hTW : (ds ++ pay).takeWhile isDigit = ds := by
    refine takeWhile_run_stop hdig ?_
    intro c hc
    rw [hnl] at hc
    cases hc
    decide
  have hstep := parse_step decode (ds ++ pay) (ds ++ pay) ds pay
    (natOfDigits ds) (getCharCountForUTF16Units pay (natOfDigits ds)).1
    (getCharCountForUTF16Units pay (natOfDigits ds)).2
    hdw.symm hTW.symm (List.drop_left ds pay).symm rfl rfl rfl
  rw [hstep, if_neg (by simp [List.append_eq_nil]; intro h; exact absurd h hds),
    if_neg (by push_neg; exact ⟨hds, hnl⟩)]

/-- C3: a frame declaring `N` UTF-16 units consumes exactly the span of
characters totalling `N` units when the scan reaches `N`; when the buffered
data after the marker amounts to fewer than `N` units, the decoder
consumes nothing of the frame and leaves it entirely in the remainder. -/
theorem c3_utf16_unit_consumption (decode : List Char → Option Json)
    (ds pay : List Char) (hds : ds ≠ [])
    (hdig : ∀ c ∈ ds, isDigit c = true) (hnl : pay.head? = some '\n') :
    ((getCharCountForUTF16Units pay (natOfDigits ds)).2 = natOfDigits ds →
      sumUnits (pay.take
          (getCharCountForUTF16Units pay (natOfDigits ds)).1) =
        natOfDigits ds ∧
      ParseResponseByFrame decode (ds ++ pay) =
        (handleChunk decode
            (pay.take (getCharCountForUTF16Units pay (natOfDigits ds)).1) ++
          (ParseResponseByFrame decode
            (pay.drop (getCharCountForUTF16Units pay (natOfDigits ds)).1)).1,
         (ParseResponseByFrame decode
           (pay.drop (getCharCountForUTF16Units pay (natOfDigits ds)).1)).2)) ∧
    (sumUnits pay < natOfDigits ds →
      ParseResponseByFrame decode (ds ++ pay) = ([], ds ++ pay)) := by
  constructor
  · intro hdone
    constructor
    · have hsum := utf16Scan_units_take pay 0 (natOfDigits ds)
        (Nat.zero_le _)
      rw [getCharCountForUTF16Units] at hdone ⊢
      omega
    · rw [parse_marker_shape decode ds pay hds hdig hnl,
        if_neg (by rw [hdone]; exact Nat.lt_irrefl _)]
  · intro hshort
    have hle := utf16Scan_le_avail pay 0 (natOfDigits ds)
    rw [parse_marker_shape decode ds pay hds hdig hnl,
      if_pos (by rw [getCharCountForUTF16Units]; omega)]

/-- Witness for C3 at concrete inputs: `"3" ++ "\n😀5\n\n[2]"` (the
two-unit character `😀` completes the three declared units together with
the newline, leaving `"5\n\n[2]"` to decode to `[2]`), and `"5" ++ "\nab"`
(three available units, five declared: nothing consumed). -/
theorem c3_utf16_unit_consumption_witness :
    (sumUnits (("\n😀5\n\n[2]".toList).take
        (getCharCountForUTF16Units "\n😀5\n\n[2]".toList
          (natOfDigits "3".toList)).1) = natOfDigits "3".toList ∧
      ParseResponseByFrame jsonDecode ("3".toList ++ "\n😀5\n\n[2]".toList) =
        (handleChunk jsonDecode
            (("\n😀5\n\n[2]".toList).take
              (getCharCountForUTF16Units "\n😀5\n\n[2]".toList
                (natOfDigits "3".toList)).1) ++
          (ParseResponseByFrame jsonDecode
            (("\n😀5\n\n[2]".toList).drop
              (getCharCountForUTF16Units "\n😀5\n\n[2]".toList
                (natOfDigits "3".toList)).1)).1,
         (ParseResponseByFrame jsonDecode
           (("\n😀5\n\n[2]".toList).drop
             (getCharCountForUTF16Units "\n😀5\n\n[2]".toList
               (natOfDigits "3".toList)).1)).2)) ∧
    ParseResponseByFrame jsonDecode ("5".toList ++ "\nab".toList) =
      ([], "5".toList ++ "\nab".toList) :=
  ⟨(c3_utf16_unit_consumption jsonDecode "3".toList "\n😀5\n\n[2]".toList
      (by decide) (by decide) (by decide)).1 (by decide),
   (c3_utf16_unit_consumption jsonDecode "5".toList "\nab".toList
      (by decide) (by decide) (by decide)).2 (by decide)⟩

/-- C7: a complete frame whose trimmed payload fails to decode as JSON
contributes nothing and decoding continues on the rest of the buffer. -/
theorem c7_malformed_frame_dropped (decode : List Char → Option Json)
    (ds pay : List Char) (hds : ds ≠ [])
    (hdig : ∀ c ∈ ds, isDigit c = true) (hnl : pay.head? = some '\n')
    (hdone : (getCharCountForUTF16Units pay (natOfDigits ds)).2 =
      natOfDigits ds)
    (hbad : decode (trimSpace (pay.take
      (getCharCountForUTF16Units pay (natOfDigits ds)).1)) = none) :
    ParseResponseByFrame decode (ds ++ pay) =
      ParseResponseByFrame decode
        (pay.drop (getCharCountForUTF16Units pay (natOfDigits ds)).1) := by
  rw [parse_marker_shape decode ds pay hds hdig hnl,
    if_neg (by rw [hdone]; exact Nat.lt_irrefl _)]
  have hchunk : handleChunk decode (pay.take
      (getCharCountForUTF16Units pay (natOfDigits ds)).1) = [] := by
    rw [handleChunk]
    split
    · rfl
    · rw [hbad]
  rw [hchunk, List.nil_append]

/-- Witness for C7: `"3\n[15\n\n[2]"` holds a complete 3-unit frame whose
trimmed payload `[1` is malformed JSON; decoding drops it and continues,
decoding the following frame to `[2]`. -/
theorem c7_malformed_frame_dropped_witness :
    ParseResponseByFrame jsonDecode ("3".toList ++ "\n[15\n\n[2]".toList) =
      ParseResponseByFrame jsonDecode
        (("\n[15\n\n[2]".toList).drop
          (getCharCountForUTF16Units "\n[15\n\n[2]".toList
            (natOfDigits "3".toList)).1) ∧
    ParseResponseByFrame jsonDecode
        (("\n[15\n\n[2]".toList).drop
          (getCharCountForUTF16Units "\n[15\n\n[2]".toList
            (natOfDigits "3".toList)).1) = ([Json.num 2], []) :=
  ⟨c7_malformed_frame_dropped jsonDecode "3".toList "\n[15\n\n[2]".toList
      (by decide) (by decide) (by decide) (by decide) (by rfl), rfl⟩

/-- C1 (amended): restricted to chunkings whose cut points fall on UTF-8
character boundaries, feeding the chunks through `ParseResponseByFrame`
with each previous remainder prepended yields the same ordered frame
sequence and the same final remainder as decoding the whole stream at
once, for every JSON decode function.  A cut point inside a character
breaks the equivalence: see the counterexample below. -/
theorem c1_chunked_decoding_eq (decode : List Char → Option Json)
    (chunks : List (List Char)) :
    feedChunks decode chunks = ParseResponseByFrame decode chunks.flatten := by
  rw [feedChunks, feedChunks_go decode chunks [] [] (parse_nil decode)]
  simp

/-- C1 fails for arbitrary byte-level chunkings.  The stream
`"2\n" ++ "€"` (bytes `50 10 226 130 172`) decodes in one shot to no
frames with everything consumed; but cut after the first byte of the euro
sign, the first call buffers `50 10 226`, Go decodes the lone `226` to
the replacement rune U+FFFD, `getCharCountForUTF16Units` re-encodes the
consumed runes to 4 bytes where only 2 are buffered, and the payload
slice `rawStr[:charCount]` panics (modelled `none`).  With the cut on the
character boundary instead, the chunked run agrees with the one-shot
run. -/
theorem c1_counterexample_midrune_split :
    ParseResponseByFrameBytes jsonDecodeB [50, 10, 226, 130, 172] =
      some ([], []) ∧
    feedChunksBytes jsonDecodeB [[50, 10, 226], [130, 172]] = none ∧
    feedChunksBytes jsonDecodeB [[50, 10, 226], [130, 172]] ≠
      ParseResponseByFrameBytes jsonDecodeB [50, 10, 226, 130, 172] ∧
    feedChunksBytes jsonDecodeB [[50, 10], [226, 130, 172]] =
      some ([], []) := by
  refine ⟨rfl, rfl, ?_, rfl⟩
  intro h
  have h1 : feedChunksBytes jsonDecodeB [[50, 10, 226], [130, 172]] =
      none := rfl
  have h2 : ParseResponseByFrameBytes jsonDecodeB [50, 10, 226, 130, 172] =
      some ([], []) := rfl
  rw [h1, h2] at h
  simp at h

/-- C4: `"5\n\n[1]"` decodes in one call to the single frame `1` with empty
remainder; decoding `"5\n"` first yields no frames and remainder `"5\n"`,
and decoding that remainder concatenated with `"\n[1]"` yields the same
single frame and empty remainder. -/
theorem c4_concrete_frame_decoding :
    ParseResponseByFrame jsonDecode "5\n\n[1]".toList = ([Json.num 1], []) ∧
    ParseResponseByFrame jsonDecode "5\n".toList = ([], "5\n".toList) ∧
    ParseResponseByFrame jsonDecode ("5\n".toList ++ "\n[1]".toList) =
      ([Json.num 1], []) :=
  ⟨rfl, rfl, rfl⟩

theorem getDelta_snd (newRaw lastSentClean : List Char) (isFinal : Bool) :
    (GetDeltaByFPLen newRaw lastSentClean isFinal).2 =
      if isFinal then newRaw else GetCleanText newRaw := by
  unfold GetDeltaByFPLen
  split
  all_goals dsimp only
  all_goals split
  any_goals rfl
  all_goals split
  any_goals rfl
  all_goals split <;> rfl

theorem getDelta_fast (newRaw lastSentClean : List Char) (isFinal : Bool)
    (h : lastSentClean.isPrefixOf
      (if isFinal then newRaw else GetCleanText newRaw) = true) :
    GetDeltaByFPLen newRaw lastSentClean isFinal =
      ((if isFinal then newRaw else GetCleanText newRaw).drop
         lastSentClean.length,
       if isFinal then newRaw else GetCleanText newRaw) := by
  cases isFinal <;> (unfold GetDeltaByFPLen; simp_all)

theorem dropFlickerTail_pre (l : List Char) :
    ∃ u, l = dropFlickerTail l ++ u := by
  induction l with
  | nil => exact ⟨[], rfl⟩
  | cons c rest ih =>
      by_cases h : flickerMatchAt (c :: rest)
      · exact ⟨c :: rest, by simp [dropFlickerTail, h]⟩
      · obtain ⟨u, hu⟩ := ih
        exact ⟨u, by simp only [dropFlickerTail, if_neg h, List.cons_append,
          List.cons.injEq, true_and]; exact hu⟩

theorem runDeltaSteps_join (steps : List (List Char × Bool)) :
    ∀ last, fastPathRun steps last = true →
    last ++ (runDeltaSteps steps last).1.flatten =
      (runDeltaSteps steps last).2 := by
  induction steps with
  | nil => intro last _; simp [runDeltaSteps]
  | cons sf rest ih =>
      intro last h
      obtain ⟨snap, fin⟩ := sf
      simp only [fastPathRun, Bool.and_eq_true] at h
      obtain ⟨hpre, hrest⟩ := h
      obtain ⟨t, ht⟩ := isPrefixOf_true_iff.mp hpre
      simp only [runDeltaSteps, getDelta_fast snap last fin hpre,
        List.flatten_cons]
      rw [← List.append_assoc, ← ht, List.drop_left]
      rw [← ht] at hrest
      exact ih (last ++ t) hrest

theorem runDeltaSteps_mono (steps : List (List Char × Bool)) :
    ∀ last, fastPathRun steps last = true →
    last <+: (runDeltaSteps steps last).2 := by
  induction steps with
  | nil => intro last _; exact List.prefix_refl last
  | cons sf rest ih =>
      intro last h
      obtain ⟨snap, fin⟩ := sf
      simp only [fastPathRun, Bool.and_eq_true] at h
      obtain ⟨hpre, hrest⟩ := h
      simp only [runDeltaSteps, getDelta_fast snap last fin hpre]
      have hp : last <+: (if fin = true then snap else GetCleanText snap) :=
        isPrefixOf_true_iff.mp hpre
      exact hp.trans (ih (if fin = true then snap else GetCleanText snap) hrest)

theorem runDeltaSteps_append (a b : List (List Char × Bool)) :
    ∀ last, runDeltaSteps (a ++ b) last =
      ((runDeltaSteps a last).1 ++
        (runDeltaSteps b (runDeltaSteps a last).2).1,
       (runDeltaSteps b (runDeltaSteps a last).2).2) := by
  induction a with
  | nil => intro last; simp [runDeltaSteps]
  | cons sf rest ih =>
      intro last
      obtain ⟨snap, fin⟩ := sf
      simp only [List.cons_append, runDeltaSteps, List.append_eq, ih]

theorem fastPathRun_append (a b : List (List Char × Bool)) :
    ∀ last, fastPathRun (a ++ b) last = true →
    fastPathRun a last = true ∧
      fastPathRun b (runDeltaSteps a last).2 = true := by
  induction a with
  | nil => intro last h; exact ⟨rfl, by simpa [runDeltaSteps] using h⟩
  | cons sf rest ih =>
      intro last h
      obtain ⟨snap, fin⟩ := sf
      simp only [List.cons_append, fastPathRun, Bool.and_eq_true] at h
      obtain ⟨hpre, hrest⟩ := h
      obtain ⟨h1, h2⟩ := ih (if fin = true then snap else GetCleanText snap)
        hrest
      refine ⟨by simp [fastPathRun, hpre, h1], ?_⟩
      simpa only [runDeltaSteps, getDelta_fast snap last fin hpre] using h2

theorem fastPathRun_take (steps : List (List Char × Bool)) (k : Nat) :
    ∀ last, fastPathRun steps last = true →
    fastPathRun (steps.take k) last = true := by
  have := fastPathRun_append (steps.take k) (steps.drop k)
  intro last h
  exact (this last (by rw [List.take_append_drop]; exact h)).1

/-- C6: the new accumulated text returned by `GetDeltaByFPLen` is the
cleaned snapshot when not final and the raw snapshot when final; cleaning
only removes a tail of the (fence-stripped) snapshot; and whenever the
(clean-adjusted) snapshot starts with the previously sent text verbatim,
the delta is exactly the suffix beyond it. -/
theorem c6_clean_fast_path (s p : List Char) (fin : Bool) :
    ((GetDeltaByFPLen s p fin).2 = if fin then s else GetCleanText s) ∧
    (∃ u, dropCodeFence s = GetCleanText s ++ u) ∧
    (∀ t, (if fin then s else GetCleanText s) = p ++ t →
      (GetDeltaByFPLen s p fin).1 = t) := by
  refine ⟨getDelta_snd s p fin, ?_, ?_⟩
  · by_cases hs : s = []
    · subst hs
      exact ⟨[], rfl⟩
    · obtain ⟨u, hu⟩ := dropFlickerTail_pre (dropCodeFence s)
      exact ⟨u, by rw [GetCleanText, if_neg hs]; exact hu⟩
  · intro t ht
    have hpre : p.isPrefixOf (if fin then s else GetCleanText s) = true :=
      isPrefixOf_true_iff.mpr ⟨t, ht.symm⟩
    rw [getDelta_fast s p fin hpre, ht]
    exact List.drop_left p t

/-- Witness for C6 at `s = "ab\\*x"`, `p = "a"`, not final: the cleaning
cuts the flicker tail `\\*x`, the accumulated text is the cleaned `"ab"`,
and the delta is the suffix `"b"` beyond `p`. -/
theorem c6_clean_fast_path_witness :
    (GetDeltaByFPLen "ab\\*x".toList "a".toList false).2 =
      GetCleanText "ab\\*x".toList ∧
    GetCleanText "ab\\*x".toList = "ab".toList ∧
    (GetDeltaByFPLen "ab\\*x".toList "a".toList false).1 = "b".toList := by
  have h := c6_clean_fast_path "ab\\*x".toList "a".toList false
  exact ⟨by simpa using h.1, rfl, h.2.2 "b".toList rfl⟩

/-- C2 (amended): when every snapshot's clean-adjusted text extends the
previously accumulated text (the fast path), the concatenation of the
emitted deltas equals the accumulated text after each step, every partial
concatenation is a prefix of the final accumulated text, and when the run
ends with a final frame the concatenation equals that frame's raw
snapshot.  (The counterexample shows the realignment path breaks this in
general.) -/
theorem c2_fast_path_delta_concat (steps : List (List Char × Bool))
    (h : fastPathRun steps [] = true) :
    (runDeltaSteps steps []).1.flatten = (runDeltaSteps steps []).2 ∧
    (∀ k, (runDeltaSteps (steps.take k) []).1.flatten <+:
      (runDeltaSteps steps []).2) ∧
    (∀ init snap, steps = init ++ [(snap, true)] →
      (runDeltaSteps steps []).1.flatten = snap) := by
  have hjoin := runDeltaSteps_join steps [] h
  rw [List.nil_append] at hjoin
  refine ⟨hjoin, ?_, ?_⟩
  · intro k
    have h1 := fastPathRun_take steps k [] h
    have h2 := runDeltaSteps_join (steps.take k) [] h1
    rw [List.nil_append] at h2
    rw [h2]
    have hsplit : steps.take k ++ steps.drop k = steps :=
      List.take_append_drop k steps
    have h3 := (fastPathRun_append (steps.take k) (steps.drop k) []
      (by rw [hsplit]; exact h)).2
    have h4 := runDeltaSteps_mono (steps.drop k) _ h3
    conv_rhs => rw [← hsplit]
    rw [runDeltaSteps_append]
    exact h4
  · intro init snap hsteps
    rw [hjoin, hsteps, runDeltaSteps_append]
    simp only [runDeltaSteps]
    rw [getDelta_snd]
    simp

/-- Witness for C2 (amended) on the fast-path run `"Hel"` then final
`"Hello"`: the deltas concatenate to the accumulated text and to the final
raw snapshot. -/
theorem c2_fast_path_delta_concat_witness :
    (runDeltaSteps [("Hel".toList, false), ("Hello".toList, true)]
        []).1.flatten =
      (runDeltaSteps [("Hel".toList, false), ("Hello".toList, true)] []).2 ∧
    (runDeltaSteps [("Hel".toList, false), ("Hello".toList, true)]
        []).1.flatten = "Hello".toList := by
  have h := c2_fast_path_delta_concat
    [("Hel".toList, false), ("Hello".toList, true)] (by decide)
  exact ⟨h.1, h.2.2 [("Hel".toList, false)] "Hello".toList rfl⟩

/-- C2 fails as stated: on the snapshots `"Hello **"` (not final) then
`"Hello *X*"` (final) the realignment path re-emits a character, so the
concatenated deltas `"Hello **X*"` are neither a prefix of the final
cleaned text nor equal to the final raw text `"Hello *X*"` (the final
accumulated text itself is correct). -/
theorem c2_counterexample_realignment :
    ((runDeltaSteps [("Hello **".toList, false), ("Hello *X*".toList, true)]
        []).1.flatten ≠ "Hello *X*".toList) ∧
    ¬ ((runDeltaSteps [("Hello **".toList, false), ("Hello *X*".toList, true)]
        []).1.flatten <+: "Hello *X*".toList) ∧
    (runDeltaSteps [("Hello **".toList, false), ("Hello *X*".toList, true)]
        []).2 = "Hello *X*".toList :=
  ⟨by decide, by decide, by decide⟩

theorem processFrame_nonempty (frame : Json) (chat : Option ChatState)
    (lt lth : SMap) (proxy : List Char) :
    ∀ o ∈ (processFrame frame chat lt lth proxy).1, o.Candidates ≠ [] := by
  intro o ho
  unfold processFrame at ho
  cases h1 : jStr (GetNestedValue frame [Key.idx 2]) with
  | none => rw [h1] at ho; simp at ho
  | some str =>
      rw [h1] at ho
      dsimp only at ho
      cases h2 : jsonDecode str with
      | none => rw [h2] at ho; simp at ho
      | some v =>
          rw [h2] at ho
          cases v
          case null => simp at ho
          case bool b => simp at ho
          case num n => simp at ho
          case str sx => simp at ho
          case obj fl => simp at ho
          case arr partJSON =>
            dsimp only at ho
            cases h4 : GetNestedValue (Json.arr partJSON) [Key.idx 4]
            case null => rw [h4] at ho; simp at ho
            case bool b => rw [h4] at ho; simp at ho
            case num n => rw [h4] at ho; simp at ho
            case str sx => rw [h4] at ho; simp at ho
            case obj fl => rw [h4] at ho; simp at ho
            case arr candList =>
              rw [h4] at ho
              dsimp only at ho
              split at ho
              · simp at ho
              · rename_i hne
                simp only [List.mem_singleton] at ho
                subst ho
                exact hne

theorem runFrames_nonempty : ∀ (frames : List Json) (chat : Option ChatState)
    (lt lth : SMap) (proxy : List Char) (o : ModelOutput),
    o ∈ (runFrames frames chat lt lth proxy).1 → o.Candidates ≠ [] := by
  intro frames
  induction frames with
  | nil => intro chat lt lth proxy o ho; simp [runFrames] at ho
  | cons f fs ih =>
      intro chat lt lth proxy o ho
      unfold runFrames at ho
      dsimp only at ho
      rcases List.mem_append.mp ho with h | h
      · exact processFrame_nonempty f chat lt lth proxy o h
      · exact ih _ _ _ proxy o h

theorem chatWithMeta_len (mData : Json) (chat : Option ChatState)
    (h : ∀ c, chat = some c → c.Metadata.length = 10) :
    ∀ c, chatWithMeta mData chat = some c → c.Metadata.length = 10 := by
  intro c hc
  cases mData <;> cases chat <;> try exact h c hc
  injection hc with h1
  rw [← h1]
  simp

theorem chatWithCtx_len (ctx : Option (List Char)) (chat : Option ChatState)
    (h : ∀ c, chat = some c → c.Metadata.length = 10) :
    ∀ c, chatWithCtx ctx chat = some c → c.Metadata.length = 10 := by
  intro c hc
  cases ctx <;> cases chat <;> try exact h c hc
  rename_i s c0
  have h0 : c0.Metadata.length = 10 := h c0 rfl
  dsimp only [chatWithCtx] at hc
  rw [if_pos (by simp [h0])] at hc
  injection hc with h1
  rw [← h1]
  simp [h0]

theorem processCandidate_chatMeta (proxy : List Char) (i : Nat)
    (cand : Json) (chat : Option ChatState) (lt lth : SMap) :
    ((processCandidate proxy i cand chat lt lth).2.1).map ChatState.Metadata
      = chat.map ChatState.Metadata := by
  unfold processCandidate
  dsimp only
  split
  · rfl
  · cases chat <;> rfl

theorem processCandidates_chatMeta (proxy : List Char) :
    ∀ (cands : List Json) (i : Nat) (chat : Option ChatState) (lt lth : SMap),
    ((processCandidates proxy cands i chat lt lth).2.1).map ChatState.Metadata
      = chat.map ChatState.Metadata := by
  intro cands
  induction cands with
  | nil => intro i chat lt lth; rfl
  | cons cand rest ih =>
      intro i chat lt lth
      unfold processCandidates
      dsimp only
      rw [ih, processCandidate_chatMeta]

theorem processFrame_metadata_len (frame : Json) (chat : Option ChatState)
    (lt lth : SMap) (proxy : List Char)
    (h : ∀ c, chat = some c → c.Metadata.length = 10) :
    ∀ c, (processFrame frame chat lt lth proxy).2.1 = some c →
      c.Metadata.length = 10 := by
  intro c hc
  unfold processFrame at hc
  cases h1 : jStr (GetNestedValue frame [Key.idx 2]) with
  | none => rw [h1] at hc; exact h c hc
  | some str =>
      rw [h1] at hc
      dsimp only at hc
      cases h2 : jsonDecode str with
      | none => rw [h2] at hc; exact h c hc
      | some v =>
          rw [h2] at hc
          cases v with
          | null => exact h c hc
          | bool b => exact h c hc
          | num n => exact h c hc
          | str s2 => exact h c hc
          | obj fl => exact h c hc
          | arr partJSON =>
              dsimp only at hc
              have hinv2 := chatWithCtx_len
                (jStr (GetNestedValue (Json.arr partJSON) [Key.idx 25]))
                (chatWithMeta
                  (GetNestedValue (Json.arr partJSON) [Key.idx 1]) chat)
                (chatWithMeta_len _ chat h)
              cases h4 : GetNestedValue (Json.arr partJSON) [Key.idx 4] with
              | null => rw [h4] at hc; exact hinv2 c hc
              | bool b => rw [h4] at hc; exact hinv2 c hc
              | num n => rw [h4] at hc; exact hinv2 c hc
              | str sx => rw [h4] at hc; exact hinv2 c hc
              | obj fl => rw [h4] at hc; exact hinv2 c hc
              | arr candList =>
                  rw [h4] at hc
                  dsimp only at hc
                  split at hc <;>
                  · have hmap := processCandidates_chatMeta proxy candList 0
                      (chatWithCtx
                        (jStr (GetNestedValue (Json.arr partJSON) [Key.idx 25]))
                        (chatWithMeta
                          (GetNestedValue (Json.arr partJSON) [Key.idx 1])
                          chat)) lt lth
                    rw [hc] at hmap
                    cases hc2 : chatWithCtx
                        (jStr (GetNestedValue (Json.arr partJSON) [Key.idx 25]))
                        (chatWithMeta
                          (GetNestedValue (Json.arr partJSON) [Key.idx 1])
                          chat) with
                    | none => rw [hc2] at hmap; simp at hmap
                    | some c2 =>
                        rw [hc2] at hmap
                        simp only [Option.map_some'] at hmap
                        have hm : c.Metadata = c2.Metadata :=
                          Option.some.inj hmap
                        rw [hm]
                        exact hinv2 c2 hc2

theorem runFrames_metadata_len : ∀ (frames : List Json)
    (chat : Option ChatState) (lt lth : SMap) (proxy : List Char),
    (∀ c, chat = some c → c.Metadata.length = 10) →
    ∀ c, (runFrames frames chat lt lth proxy).2 = some c →
      c.Metadata.length = 10 := by
  intro frames
  induction frames with
  | nil => intro chat lt lth proxy h c hc; exact h c hc
  | cons f fs ih =>
      intro chat lt lth proxy h c hc
      unfold runFrames at hc
      dsimp only at hc
      exact ih _ _ _ proxy (processFrame_metadata_len f chat lt lth proxy h)
        c hc

/-- C9 is wrong about the code as written: `GenerateContent` never returns
the last streamed update and never produces the `"no content generated"`
error.  The worker goroutine's deferred `close(errChan)` runs before its
deferred `close(outChan)` (defers run last-in-first-out), so once the
output loop ends the `select` receive on the already-closed `errChan`
always fires with the zero error and the function returns the zero
`ModelOutput` with a nil error.  On the single-frame stream `c5Frame` the
stream's last update carries a candidate, yet the collect wrapper returns
the candidate-less zero output instead of that update, and no input can
reach the empty-result error. -/
theorem c9_code_bug_zero_output :
    (generateContentGo [c5Frame] (some startChatState) []).1 =
      Except.ok zeroOutput ∧
    zeroOutput.Candidates = [] ∧
    (runFrames [c5Frame] (some startChatState) [] [] []).1.getLast? =
      some c9LastOutput ∧
    c9LastOutput.Candidates ≠ [] ∧
    c9LastOutput ≠ zeroOutput :=
  ⟨rfl, rfl, rfl, by decide, by decide⟩

/-- C5 fails as stated: `rc1` is a valid final candidate of
`c5FrameNullMeta`, yet after `SendMessage` the non-empty-slot part of the
claim fails — the metadata array of the response carries only nulls, so
`processFrame`'s 10-slot copy leaves slot 0 empty, and the `SendMessage`
overwrite that the claim's slots 0-2 would come from is dead code (the
returned output is always the zero `ModelOutput`, which has no metadata,
so `len(output.Metadata) >= 3` is false). -/
theorem c5_counterexample_empty_slots :
    (sendMessageGo startChatState [c5FrameNullMeta] []).1 =
      Except.ok zeroOutput ∧
    (sendMessageGo startChatState [c5FrameNullMeta] []).2.RCID =
      "rc1".toList ∧
    (sendMessageGo startChatState [c5FrameNullMeta] []).2.Metadata.length
      = 10 ∧
    (sendMessageGo startChatState [c5FrameNullMeta] []).2.Metadata.getD 0 []
      = [] :=
  ⟨rfl, rfl, rfl, rfl⟩

/-- C5 (amended): a session whose metadata has 10 slots still has exactly
10 slots after `SendMessage`, whatever the server sent — `processFrame`
either keeps the metadata or replaces it by a fresh 10-slot copy, and
`SendMessage`'s own overwrite never fires because the returned output is
always the zero `ModelOutput` with a nil error.  The slots hold the
strings of the response's metadata array (padded with empty strings), not
necessarily non-empty ones. -/
theorem c5_ten_slot_metadata (sess : ChatState) (frames : List Json)
    (proxy : List Char) (h : sess.Metadata.length = 10) :
    (sendMessageGo sess frames proxy).1 = Except.ok zeroOutput ∧
    (sendMessageGo sess frames proxy).2.Metadata.length = 10 := by
  refine ⟨rfl, ?_⟩
  have hrf := runFrames_metadata_len frames (some sess) [] [] proxy
    (by intro c hc; cases hc; exact h)
  show ((runFrames frames (some sess) [] [] proxy).2.getD sess).Metadata.length
    = 10
  cases hr : (runFrames frames (some sess) [] [] proxy).2 with
  | none => simp only [Option.getD_none]; exact h
  | some c => simp only [Option.getD_some]; exact hrf c hr

/-- Witness for C5 (amended): the fresh 10-slot session stays 10-slot
after the 10-entry frame `c5Frame10`; the turn succeeds, slot 0 holds the
conversation id and the session records the candidate id. -/
theorem c5_ten_slot_metadata_witness :
    ((sendMessageGo startChatState [c5Frame10] []).1 =
        Except.ok zeroOutput ∧
      (sendMessageGo startChatState [c5Frame10] []).2.Metadata.length
        = 10) ∧
    (sendMessageGo startChatState [c5Frame10] []).2.Metadata.getD 0 [] =
      "c1".toList ∧
    (sendMessageGo startChatState [c5Frame10] []).2.RCID = "rc1".toList :=
  ⟨c5_ten_slot_metadata startChatState [c5Frame10] [] (by decide),
   rfl, rfl⟩

theorem runUploads_first_failure (env : Env) (f : List Char)
    (fs2 : List (List Char)) (e : GenErr)
    (hfail : env.uploadRes f = Except.error e) :
    ∀ (fs1 : List (List Char)) (acc : List Req),
    (∀ g ∈ fs1, ∃ u, env.uploadRes g = Except.ok u) →
    runUploads env (fs1 ++ f :: fs2) acc =
      (acc ++ fs1.map Req.upload ++ [Req.upload f], Except.error e) := by
  intro fs1
  induction fs1 with
  | nil =>
      intro acc _
      simp only [List.nil_append, runUploads, hfail, List.map_nil,
        List.append_nil]
  | cons g gs ih =>
      intro acc hok
      obtain ⟨u, hu⟩ := hok g (by simp)
      simp only [List.cons_append, runUploads, hu, List.append_eq]
      rw [ih (acc ++ [Req.upload g]) (fun x hx => hok x (by simp [hx]))]
      simp [List.append_assoc]

/-- C8: when any attached file's upload fails (earlier uploads succeeding),
the generate call surfaces exactly that error and no request is ever sent
to the generate endpoint. -/
theorem c8_upload_failure_aborts (env : Env) (prompt : List Char)
    (fs1 : List (List Char)) (f : List Char) (fs2 : List (List Char))
    (e : GenErr) (hprompt : prompt ≠ [])
    (hbatch : env.batchRes 0 = none)
    (hok : ∀ g ∈ fs1, ∃ u, env.uploadRes g = Except.ok u)
    (hfail : env.uploadRes f = Except.error e) :
    (generateCallRequests env prompt (fs1 ++ f :: fs2)).2 = some e ∧
    Req.generate ∉ (generateCallRequests env prompt (fs1 ++ f :: fs2)).1 := by
  have hfiles : fs1 ++ f :: fs2 ≠ [] := by simp
  unfold generateCallRequests
  rw [if_neg hprompt, if_neg hfiles, hbatch]
  dsimp only
  rw [runUploads_first_failure env f fs2 e hfail fs1 [Req.batch] hok]
  refine ⟨rfl, ?_⟩
  simp only [List.mem_append, List.mem_map, List.mem_singleton]
  rintro ((h | ⟨g, _, h⟩) | h) <;> cases h

/-- Witness for C8: with every upload failing, the single-file call
surfaces the upload error and issues only the activity and upload
requests. -/
theorem c8_upload_failure_aborts_witness :
    (generateCallRequests c8Env "hi".toList ["a.png".toList]).2 =
      some (GenErr.uploadFailed "a.png".toList) ∧
    Req.generate ∉ (generateCallRequests c8Env "hi".toList
      ["a.png".toList]).1 :=
  c8_upload_failure_aborts c8Env "hi".toList [] "a.png".toList []
    (GenErr.uploadFailed "a.png".toList) (by decide) rfl (by simp) rfl

/-- C10 fails as stated: with one candidate and `Chosen = -1` the index is
invalid, yet the guard `len(m.Candidates) > m.Chosen` passes and the slice
access panics (modelled `none`) instead of returning the empty string /
`nil`. -/
theorem c10_counterexample_negative_chosen :
    ¬ (0 ≤ c10Out.Chosen ∧ c10Out.Chosen < (c10Out.Candidates.length : Int)) ∧
    ModelOutput.goString c10Out = none ∧
    ModelOutput.goText c10Out = none ∧
    ModelOutput.goImages c10Out = none :=
  ⟨by decide, rfl, rfl, rfl⟩

/-- C10 (amended): when `Chosen` is at least the candidate count — in
particular any non-negative `Chosen` on an empty candidate list —
`String()`/`Text()` return the empty string and `Images()` returns `nil`,
without panicking; and for every non-negative `Chosen` none of the three
accessors panics.  (A negative `Chosen` passes the guard and panics.) -/
theorem c10_accessor_totality (m : ModelOutput) :
    ((m.Candidates.length : Int) ≤ m.Chosen →
      m.goString = some [] ∧ m.goText = some [] ∧ m.goImages = some []) ∧
    (0 ≤ m.Chosen →
      m.goString ≠ none ∧ m.goText ≠ none ∧ m.goImages ≠ none) := by
  constructor
  · intro hge
    have hneg : ¬ ((m.Candidates.length : Int) > m.Chosen) :=
      not_lt.mpr hge
    refine ⟨?_, ?_, ?_⟩ <;>
      simp only [ModelOutput.goString, ModelOutput.goText,
        ModelOutput.goImages, if_neg hneg]
  · intro hpos
    by_cases hlt : (m.Candidates.length : Int) > m.Chosen
    · have hidx : m.Chosen.toNat < m.Candidates.length := by omega
      have hsome : ∃ c, m.Candidates.get? m.Chosen.toNat = some c := by
        cases hx : m.Candidates.get? m.Chosen.toNat with
        | none => exact absurd (List.get?_eq_none.mp hx) (by omega)
        | some c => exact ⟨c, rfl⟩
      obtain ⟨c, hc⟩ := hsome
      have hgi : goIndexList m.Candidates m.Chosen = some c := by
        rw [goIndexList, if_pos ⟨hpos, hlt⟩, hc]
      refine ⟨?_, ?_, ?_⟩ <;>
        simp [ModelOutput.goString, ModelOutput.goText,
          ModelOutput.goImages, if_pos hlt, hgi]
    · refine ⟨?_, ?_, ?_⟩ <;>
        simp [ModelOutput.goString, ModelOutput.goText,
          ModelOutput.goImages, if_neg hlt]

/-- Witness for C10 (amended) at the zero `ModelOutput` (empty candidate
list, `Chosen = 0`): every accessor returns the empty value without
panicking. -/
theorem c10_accessor_totality_witness :
    (zeroOutput.goString = some [] ∧ zeroOutput.goText = some [] ∧
      zeroOutput.goImages = some []) ∧
    (zeroOutput.goString ≠ none ∧ zeroOutput.goText ≠ none ∧
      zeroOutput.goImages ≠ none) :=
  ⟨(c10_accessor_totality zeroOutput).1 (by decide),
   (c10_accessor_totality zeroOutput).2 (by decide)⟩

/-- The per-candidate delta thread `runDeltaSteps` agrees with the full
frame pipeline: on the two frames behind the realignment counterexample,
`processFrame` emits exactly the deltas and accumulated texts that
`runDeltaSteps` computes from the candidate's snapshots. -/
theorem pipeline_matches_delta_thread :
    ((runFrames [c2Frame1, c2Frame2] none [] [] []).1.map
      (fun o => o.Candidates.map Candidate.TextDelta)) =
      [["Hello **".toList], ["X*".toList]] ∧
    ((runFrames [c2Frame1, c2Frame2] none [] [] []).1.map
      (fun o => o.Candidates.map Candidate.Text)) =
      [["Hello **".toList], ["Hello *X*".toList]] ∧
    (runDeltaSteps [("Hello **".toList, false), ("Hello *X*".toList, true)]
      []).1 = ["Hello **".toList, "X*".toList] := ⟨rfl, rfl, rfl⟩
